import Mathlib

/-!
Verification of the graph subsystem of the algods repository.

The Rust sources under src/graph are shallowly embedded below.  The
embedding conventions are:

* `usize` vertex indices become `Nat`; edge weights (the `Weight` trait)
  become `Nat` for flow networks (the claims instantiate `W = u8` and all
  quantities stay far below 256, so no wraparound can occur) and `Int`
  for shortest-path weights (which may be negative).
* `HashSet<T>` is modelled as an insertion-ordered duplicate-free list:
  `insert` appends the element if and only if it is not already present
  and reports whether it was new, exactly like `HashSet::insert`.
  Iteration order of a `HashSet` is unspecified in Rust; the embedding
  fixes it to insertion order, a deterministic refinement.
* `Vec<T>` becomes `List T`; in-place mutation becomes explicit state
  passing (`List.set`).
* Rust recursion / `while` loops that terminate for extrinsic reasons
  (DFS marks a new vertex on every nested call, BFS marks every enqueued
  vertex, every Ford-Fulkerson round strictly increases the total flow)
  are given an explicit fuel argument; the fuel-exhaustion branch is
  proved unreachable (or the result is `none`, distinguishing it from a
  genuine result) wherever a theorem depends on it.
* A Rust `panic!` / `expect` failure is modelled as a distinguished
  result (`none`, or `SpfaResult.fatal`).
-/

namespace Algods

/-- Model of `HashSet::insert`: append the element if it is not already
present, and report whether it was new. -/
def hsInsert {α : Type} [DecidableEq α] (l : List α) (x : α) : List α × Bool :=
  if x ∈ l then (l, false) else (l ++ [x], true)

/-- Increment entry `i` of a counter list (models `vec[i] += 1`). -/
def bump (l : List Nat) (i : Nat) : List Nat :=
  l.set i (l.getD i 0 + 1)

/-- Directed graph from directed_graph.rs: adjacency `HashSet`s, an edge
counter, a vertex counter and an incrementally maintained in-degree
vector. -/
structure DiGraph where
  out_edges : List (List Nat)
  nb_edges : Nat
  nb_vertices : Nat
  in_degree : List Nat
deriving DecidableEq

namespace DiGraph

/-- `DiGraph::new` -/
def new : DiGraph := ⟨[], 0, 0, []⟩

/-- `DiGraph::init` -/
def init (nb_vertices : Nat) : DiGraph :=
  ⟨List.replicate nb_vertices [], 0, nb_vertices, List.replicate nb_vertices 0⟩

/-- The adjacency set of a vertex (`DiGraph::out_edges`, and also
`VertexInfo::vertex_edges`, whose iteration order is modelled as the
insertion order). -/
def adj (g : DiGraph) (v : Nat) : List Nat :=
  g.out_edges.getD v []

/-- Membership of a directed edge. -/
def edgeMem (g : DiGraph) (u v : Nat) : Prop :=
  v ∈ g.adj u

instance (g : DiGraph) (u v : Nat) : Decidable (edgeMem g u v) := by
  unfold edgeMem; infer_instance

/-- `DiGraph::add_edge`: insert `target` into the adjacency set of
`source`; bump the edge counter and the in-degree entry of `target` only
when the edge was new. -/
def add_edge (g : DiGraph) (source target : Nat) : DiGraph :=
  let p := hsInsert (g.out_edges.getD source []) target
  { out_edges := g.out_edges.set source p.1
    nb_edges := g.nb_edges + (if p.2 then 1 else 0)
    nb_vertices := g.nb_vertices
    in_degree := if p.2 then bump g.in_degree target else g.in_degree }

/-- `DiGraph::add_vertices` (`Vec::resize` to a larger size appends). -/
def add_vertices (g : DiGraph) (nb : Nat) : DiGraph :=
  { out_edges := g.out_edges ++ List.replicate nb []
    nb_edges := g.nb_edges
    nb_vertices := g.nb_vertices + nb
    in_degree := g.in_degree ++ List.replicate nb 0 }

/-- `DiGraph::from_vec`: grow the graph to fit each edge, `add_edge` it,
then increment the in-degree entry of the target once more (the source
does this in addition to the increment already performed by
`add_edge`). -/
def from_vec (edges : List (Nat × Nat)) : DiGraph :=
  edges.foldl
    (fun g e =>
      let mv := max e.1 e.2
      let g := if g.nb_vertices ≤ mv then g.add_vertices (mv - g.nb_vertices + 1) else g
      let g := g.add_edge e.1 e.2
      { g with in_degree := bump g.in_degree e.2 })
    new

/-- The body of the inner loop of `DiGraph::reverse`: insert the edge
flipped, then increment the in-degree entry of the original source once
more (in addition to the increment performed by `add_edge`). -/
def reverseStep (v : Nat) (rg : DiGraph) (w : Nat) : DiGraph :=
  let rg := rg.add_edge w v
  { rg with in_degree := bump rg.in_degree v }

/-- `DiGraph::reverse`: a fresh graph of the same size in which every
edge of every vertex is inserted flipped. -/
def reverse (g : DiGraph) : DiGraph :=
  (List.range g.nb_vertices).foldl
    (fun rg v => (g.adj v).foldl (reverseStep v) rg)
    (init g.nb_vertices)

/-- `DiGraph::in_edges`: the distinct sources whose adjacency set
contains the vertex. -/
def in_edges (g : DiGraph) (v : Nat) : List Nat :=
  (List.range g.out_edges.length).filter (fun s => v ∈ g.out_edges.getD s [])

/-- `DiGraph::in_degree`: recomputed from `in_edges` (the `in_degree`
field is not consulted). -/
def in_degree_of (g : DiGraph) (v : Nat) : Nat :=
  (g.in_edges v).length

/-- Well-formedness: the adjacency vector has one entry per vertex and
every stored target is in range.  Every graph reachable through the
public constructors satisfies this. -/
def WF (g : DiGraph) : Prop :=
  g.out_edges.length = g.nb_vertices ∧
    ∀ l ∈ g.out_edges, ∀ t ∈ l, t < g.nb_vertices

instance (g : DiGraph) : Decidable (WF g) := by
  unfold WF; infer_instance

end DiGraph

/-- Undirected graph from undirected_graph.rs. -/
structure Graph where
  data : List (List Nat)
  nb_edges : Nat
  nb_vertices : Nat
deriving DecidableEq

namespace Graph

/-- `Graph::init` -/
def init (nb_vertices : Nat) : Graph :=
  ⟨List.replicate nb_vertices [], 0, nb_vertices⟩

/-- The neighbour set of a vertex (`VertexInfo::vertex_edges`). -/
def adj (g : Graph) (v : Nat) : List Nat :=
  g.data.getD v []

/-- Membership of an undirected edge as stored (each edge is recorded in
both endpoints). -/
def edgeMem (g : Graph) (v w : Nat) : Prop :=
  w ∈ g.adj v

instance (g : Graph) (v w : Nat) : Decidable (edgeMem g v w) := by
  unfold edgeMem; infer_instance

/-- `Graph::add_edge`: insert each endpoint into the other's neighbour
set (sequentially, as in the source) and bump the edge counter when
either insertion was new. -/
def add_edge (g : Graph) (vertex_v vertex_w : Nat) : Graph :=
  let p1 := hsInsert (g.data.getD vertex_v []) vertex_w
  let data1 := g.data.set vertex_v p1.1
  let p2 := hsInsert (data1.getD vertex_w []) vertex_v
  { data := data1.set vertex_w p2.1
    nb_edges := g.nb_edges + (if p2.2 || p1.2 then 1 else 0)
    nb_vertices := g.nb_vertices }

/-- Well-formedness for undirected graphs. -/
def WF (g : Graph) : Prop :=
  g.data.length = g.nb_vertices ∧
    ∀ l ∈ g.data, ∀ t ∈ l, t < g.nb_vertices

instance (g : Graph) : Decidable (WF g) := by
  unfold WF; infer_instance

end Graph

/-- Weighted directed edge from directed_graph.rs (`WeightedDiEdge`);
weights are embedded as `Int`. -/
structure WeightedDiEdge where
  frm : Nat
  dst : Nat
  weight : Int
deriving DecidableEq

/-- Edge-weighted directed graph from directed_graph.rs
(`EdgeWeightedDiGraph`): adjacency `HashSet`s of whole edge records, so
parallel edges with different weights are distinct. -/
structure EdgeWeightedDiGraph where
  out_edges : List (List WeightedDiEdge)
  nb_edges : Nat
  nb_vertices : Nat
  in_degree : List Nat
deriving DecidableEq

namespace EdgeWeightedDiGraph

/-- `EdgeWeightedDiGraph::new` -/
def new : EdgeWeightedDiGraph := ⟨[], 0, 0, []⟩

/-- `EdgeWeightedDiGraph::init` -/
def init (nb_vertices : Nat) : EdgeWeightedDiGraph :=
  ⟨List.replicate nb_vertices [], 0, nb_vertices, List.replicate nb_vertices 0⟩

/-- `EdgeWeightedDiGraph::add_edge` -/
def add_edge (g : EdgeWeightedDiGraph) (source target : Nat) (weight : Int) :
    EdgeWeightedDiGraph :=
  let p := hsInsert (g.out_edges.getD source []) ⟨source, target, weight⟩
  { out_edges := g.out_edges.set source p.1
    nb_edges := g.nb_edges + (if p.2 then 1 else 0)
    nb_vertices := g.nb_vertices
    in_degree := if p.2 then bump g.in_degree target else g.in_degree }

/-- `EdgeWeightedDiGraph::add_vertices` -/
def add_vertices (g : EdgeWeightedDiGraph) (nb : Nat) : EdgeWeightedDiGraph :=
  { out_edges := g.out_edges ++ List.replicate nb []
    nb_edges := g.nb_edges
    nb_vertices := g.nb_vertices + nb
    in_degree := g.in_degree ++ List.replicate nb 0 }

/-- `EdgeWeightedDiGraph::from_vec`: grow, `add_edge`, then increment the
in-degree entry of the target once more (in addition to the increment
already performed inside `add_edge`). -/
def from_vec (edges : List (Nat × Nat × Int)) : EdgeWeightedDiGraph :=
  edges.foldl
    (fun g e =>
      let mv := max e.1 e.2.1
      let g := if g.nb_vertices ≤ mv then g.add_vertices (mv - g.nb_vertices + 1) else g
      let g := g.add_edge e.1 e.2.1 e.2.2
      { g with in_degree := bump g.in_degree e.2.1 })
    new

/-- `EdgeWeightedDiGraph::in_degree`: reads the incrementally maintained
field. -/
def in_degree_of (g : EdgeWeightedDiGraph) (v : Nat) : Nat :=
  g.in_degree.getD v 0

/-- Modelled from the spec: the `EdgeInfo` trait of graph.rs has no
implementation in the sources, only its declaration and its generic
consumers (the shortest-path functions); per §4.5 the weighted digraph
exposes its out-edges as (destination, weight) pairs and its total edge
count.  Iteration order is the insertion order of the adjacency set. -/
def out_pairs (g : EdgeWeightedDiGraph) (v : Nat) : List (Nat × Int) :=
  (g.out_edges.getD v []).map (fun e => (e.dst, e.weight))

end EdgeWeightedDiGraph

/-- `FlowEdge` from directed_graph.rs; `W = u8` is embedded as `Nat`
(all quantities in the claims stay far below 256). -/
structure FlowEdge where
  frm : Nat
  dst : Nat
  flow : Nat
  capacity : Nat
deriving DecidableEq

namespace FlowEdge

/-- `FlowEdge::residual_capacity` -/
def residual_capacity (e : FlowEdge) : Nat :=
  e.capacity - e.flow

/-- `FlowEdge::add_residual_flow_to`: subtract from the flow when given
the edge's origin, add when given its destination.  The panicking third
branch is unreachable in every run below (the vertex always is an
endpoint) and is modelled as the identity. -/
def add_residual_flow_to (e : FlowEdge) (vertex delta : Nat) : FlowEdge :=
  if vertex = e.frm then { e with flow := e.flow - delta }
  else if vertex = e.dst then { e with flow := e.flow + delta }
  else e

end FlowEdge

/-- `FlowNetwork` from directed_graph.rs: parallel forward and backward
edge lists (`Vec`s, so iteration order is insertion order in the source
as well). -/
structure FlowNetwork where
  out_edges : List (List FlowEdge)
  back_edges : List (List FlowEdge)
  nb_edges : Nat
  nb_vertices : Nat
  in_degree : List Nat
deriving DecidableEq

namespace FlowNetwork

/-- `FlowNetwork::init` -/
def init (nb_vertices : Nat) : FlowNetwork :=
  ⟨List.replicate nb_vertices [], List.replicate nb_vertices [], 0, nb_vertices,
    List.replicate nb_vertices 0⟩

/-- `FlowNetwork::add_edge`: push a forward edge and a backward
bookkeeping edge when the forward edge is not already present. -/
def add_edge (g : FlowNetwork) (frm dst flow cap : Nat) : FlowNetwork :=
  let forward_edge : FlowEdge := ⟨frm, dst, flow, cap⟩
  let backward_edge : FlowEdge := ⟨dst, frm, flow, flow⟩
  if forward_edge ∈ g.out_edges.getD frm [] then g
  else
    { out_edges := g.out_edges.set frm (g.out_edges.getD frm [] ++ [forward_edge])
      back_edges := g.back_edges.set dst (g.back_edges.getD dst [] ++ [backward_edge])
      nb_edges := g.nb_edges + 1
      nb_vertices := g.nb_vertices
      in_degree := bump g.in_degree dst }

end FlowNetwork

/-- Faithful embedding of `dfs` from first_search.rs, generic over the
per-vertex out-neighbour list (`VertexInfo::vertex_edges`).  The Rust
recursion terminates because every nested call happens on a vertex that
is unmarked and gets marked immediately; the embedding makes that bound
explicit through a fuel argument, and the theorems below only ever use
the function with fuel at least the number of unmarked vertices, where
the fuel-exhaustion branch is unreachable.  In path-tracking mode
(`mut_edge_to = true`) the `edge_to` entry of each freshly explored
neighbour is set after the recursive call returns; in order-recording
mode the origin is appended to the output list after all neighbours are
explored. -/
def dfs (adjF : Nat → List Nat) :
    Nat → Nat → Nat → Bool → Bool → List Bool → List Nat → List Bool × List Nat
  | 0, _, _, _, _, marked, edge_to => (marked, edge_to)
  | fuel + 1, origin, component, mut_edge_to, is_component, marked, edge_to =>
    let marked1 := marked.set origin true
    let source := if is_component then component else origin
    if mut_edge_to then
      (adjF origin).foldl
        (fun st u =>
          if st.1.getD u false then st
          else
            let st1 := dfs adjF fuel u component mut_edge_to is_component st.1 st.2
            (st1.1, st1.2.set u source))
        (marked1, edge_to)
    else
      let st :=
        (adjF origin).foldl
          (fun st u =>
            if st.1.getD u false then st
            else dfs adjF fuel u component mut_edge_to is_component st.1 st.2)
          (marked1, edge_to)
      (st.1, st.2 ++ [origin])

/-- State of `TopologicalSort` from sort.rs. -/
structure TopoState where
  reverse_postorder : List Nat
  marked : List Bool
deriving DecidableEq

namespace TopologicalSort

/-- `TopologicalSort::init` -/
def init (nb_vertices : Nat) : TopoState :=
  ⟨[], List.replicate nb_vertices false⟩

/-- `TopologicalSort::depth_first_order`: launch an order-recording DFS
from every still unmarked vertex position. -/
def depth_first_order (adjF : Nat → List Nat) (nb : Nat) (st : TopoState) : TopoState :=
  (List.range nb).foldl
    (fun st v =>
      if st.marked.getD v false then st
      else
        let r := dfs adjF nb v v false false st.marked st.reverse_postorder
        ⟨r.2, r.1⟩)
    st

/-- `TopologicalSort::order`: the reverse postorder, reversed (the Rust
iterator materialised as a list). -/
def order (st : TopoState) : List Nat :=
  st.reverse_postorder.reverse

end TopologicalSort

/-- State of `ConnectedComponent` from connection.rs. -/
structure CCState where
  id : List Nat
  marked : List Bool
  nb_cc : Nat
  ran : Bool
deriving DecidableEq

namespace ConnectedComponent

/-- `ConnectedComponent::init` -/
def init (nb_vertices : Nat) : CCState :=
  ⟨List.range nb_vertices, List.replicate nb_vertices false, 0, false⟩

/-- `ConnectedComponent::find`: a path-tracking component-labelling DFS
from every still unmarked vertex of the undirected graph. -/
def find (g : Graph) (s : CCState) : CCState :=
  let s :=
    (List.range g.nb_vertices).foldl
      (fun s v =>
        if s.marked.getD v false then s
        else
          let r := dfs (Graph.adj g) g.nb_vertices v v true true s.marked s.id
          ⟨r.2, r.1, s.nb_cc + 1, s.ran⟩)
      s
  { s with ran := true }

/-- `ConnectedComponent::connected` -/
def connected (s : CCState) (v w : Nat) : Option Bool :=
  if s.marked.getD v false = false ∨ s.marked.getD w false = false then none
  else some (s.id.getD v 0 == s.id.getD w 0)

/-- `ConnectedComponent::count` -/
def count (s : CCState) : Nat := s.nb_cc

end ConnectedComponent

/-- State of `StrongConnectedComponent` from connection.rs. -/
structure SCCState where
  id : List Nat
  marked : List Bool
  nb_scc : Nat
  ran : Bool
deriving DecidableEq

namespace StrongConnectedComponent

/-- `StrongConnectedComponent::init` -/
def init (nb_vertices : Nat) : SCCState :=
  ⟨List.range nb_vertices, List.replicate nb_vertices false, 0, false⟩

/-- `StrongConnectedComponent::find` (Kosaraju): take the reverse
postorder of the reversed graph, iterate it backwards, and launch a
path-tracking component-labelling DFS on the original graph from every
still unmarked vertex of that sequence. -/
def find (g : DiGraph) (s : SCCState) : SCCState :=
  let nb := g.nb_vertices
  let topo := TopologicalSort.depth_first_order (DiGraph.adj g.reverse) nb
    (TopologicalSort.init nb)
  let order_second_dfs := topo.reverse_postorder
  let s :=
    (List.range nb).foldl
      (fun s v =>
        let vertex := order_second_dfs.getD (nb - 1 - v) 0
        if s.marked.getD vertex false then s
        else
          let r := dfs (DiGraph.adj g) nb vertex vertex true true s.marked s.id
          ⟨r.2, r.1, s.nb_scc + 1, s.ran⟩)
      s
  { s with ran := true }

/-- `StrongConnectedComponent::connected` -/
def connected (s : SCCState) (v w : Nat) : Option Bool :=
  if s.marked.getD v false = false ∨ s.marked.getD w false = false then none
  else some (s.id.getD v 0 == s.id.getD w 0)

/-- `StrongConnectedComponent::count` -/
def count (s : SCCState) : Nat := s.nb_scc

end StrongConnectedComponent

/-- `relax` from shortest_path.rs: unconditionally overwrite the
distance and predecessor of the destination. -/
def relax (dist_to : List Int) (edge_to : List Nat) (origin destination : Nat)
    (dist : Int) : List Int × List Nat :=
  (dist_to.set destination (dist_to.getD origin 0 + dist),
    edge_to.set destination origin)

/-- `bellman_ford` from shortest_path.rs: zero the source distance, then
iterate `v` over `0..nb_edges()` (the number of EDGES, exactly as in the
source), relaxing every out-edge of the VERTEX with index `v` whenever
it improves the destination's tentative distance. -/
def bellman_ford (g : EdgeWeightedDiGraph) (source : Nat) (edge_to : List Nat)
    (dist_to : List Int) : List Nat × List Int :=
  let dist_to := dist_to.set source 0
  (List.range g.nb_edges).foldl
    (fun (st : List Nat × List Int) v =>
      (g.out_pairs v).foldl
        (fun (st : List Nat × List Int) uw =>
          if st.2.getD v 0 + uw.2 < st.2.getD uw.1 0 then
            let r := relax st.2 st.1 v uw.1 uw.2
            (r.2, r.1)
          else st)
        st)
    (edge_to, dist_to)

/-- One conditional relaxation step over an explicit (source,
destination, weight) triple. -/
def relaxTriple (st : List Nat × List Int) (t : Nat × Nat × Int) :
    List Nat × List Int :=
  if st.2.getD t.1 0 + t.2.2 < st.2.getD t.2.1 0 then
    let r := relax st.2 st.1 t.1 t.2.1 t.2.2
    (r.2, r.1)
  else st

/-- The sequence of edges `bellman_ford` actually examines: the
out-edges, in storage order, of the vertices whose index is below
`nb_edges()`. -/
def bellmanFordExamined (g : EdgeWeightedDiGraph) : List (Nat × Nat × Int) :=
  (List.range g.nb_edges).flatMap
    (fun v => (g.out_pairs v).map (fun uw => (v, uw.1, uw.2)))

/-- All edges of the graph in storage order: the out-edges of every
vertex, vertex by vertex. -/
def allEdgeTriples (g : EdgeWeightedDiGraph) : List (Nat × Nat × Int) :=
  (List.range g.nb_vertices).flatMap
    (fun v => (g.out_pairs v).map (fun uw => (v, uw.1, uw.2)))

/-- Modelled from the spec: the claim's reading of Bellman-Ford, which
iterates over ALL edges of the graph in storage order exactly once,
relaxing an edge exactly when it improves the tentative distance of its
destination. -/
def bellman_ford_claimC6 (g : EdgeWeightedDiGraph) (source : Nat)
    (edge_to : List Nat) (dist_to : List Int) : List Nat × List Int :=
  (allEdgeTriples g).foldl relaxTriple (edge_to, dist_to.set source 0)

/-- Result of the embedded SPFA: a normal result, the `expect` panic on
the missing deque front (`fatal`), or exhaustion of the embedding's fuel
(`out`, never the behaviour of the source). -/
inductive SpfaResult
  | ok (edge_to : List Nat) (dist_to : List Int)
  | fatal
  | out
deriving DecidableEq

/-- The inner edge loop of `shortest_path_faster_algorithm`: relax each
improving out-edge of `v`; when the destination is not already queued,
read the deque front (`none` models the `expect` panic when the deque is
empty), push the destination to the front when its new distance beats
the front's distance, and in every case push it to the back. -/
def spfaEdges (v : Nat) :
    List (Nat × Int) → List Nat → List Int → List Nat →
      Option (List Nat × List Int × List Nat)
  | [], edge_to, dist_to, deque => some (edge_to, dist_to, deque)
  | (neighbor, weight) :: rest, edge_to, dist_to, deque =>
    if dist_to.getD v 0 + weight < dist_to.getD neighbor 0 then
      let r := relax dist_to edge_to v neighbor weight
      if neighbor ∈ deque then spfaEdges v rest r.2 r.1 deque
      else
        match deque with
        | [] => none
        | front :: _ =>
          let deque1 :=
            if r.1.getD neighbor 0 < r.1.getD front 0 then neighbor :: deque else deque
          spfaEdges v rest r.2 r.1 (deque1 ++ [neighbor])
    else spfaEdges v rest edge_to dist_to deque

/-- The outer `while let Some(vertex) = deque.pop_front()` loop. -/
def spfaLoop (g : EdgeWeightedDiGraph) :
    Nat → List Nat → List Nat → List Int → SpfaResult
  | 0, _, _, _ => SpfaResult.out
  | _ + 1, [], edge_to, dist_to => SpfaResult.ok edge_to dist_to
  | fuel + 1, v :: deque, edge_to, dist_to =>
    match spfaEdges v (g.out_pairs v) edge_to dist_to deque with
    | none => SpfaResult.fatal
    | some (edge_to, dist_to, deque) => spfaLoop g fuel deque edge_to dist_to

/-- `shortest_path_faster_algorithm` from shortest_path.rs: zero the
source distance, enqueue the source, and run the deque loop. -/
def shortest_path_faster_algorithm (g : EdgeWeightedDiGraph) (source : Nat)
    (edge_to : List Nat) (dist_to : List Int) (fuel : Nat) : SpfaResult :=
  spfaLoop g fuel [source] edge_to (dist_to.set source 0)

/-- Modelled from the spec: the inner edge loop as the claim describes
it — an improving, not-yet-queued destination is enqueued exactly once,
at the front when its new distance beats the current front's distance
and at the back otherwise. -/
def spfaEdges_claimC7 (v : Nat) :
    List (Nat × Int) → List Nat → List Int → List Nat →
      List Nat × List Int × List Nat
  | [], edge_to, dist_to, deque => (edge_to, dist_to, deque)
  | (neighbor, weight) :: rest, edge_to, dist_to, deque =>
    if dist_to.getD v 0 + weight < dist_to.getD neighbor 0 then
      let r := relax dist_to edge_to v neighbor weight
      if neighbor ∈ deque then spfaEdges_claimC7 v rest r.2 r.1 deque
      else
        match deque with
        | [] => spfaEdges_claimC7 v rest r.2 r.1 [neighbor]
        | front :: _ =>
          if r.1.getD neighbor 0 < r.1.getD front 0 then
            spfaEdges_claimC7 v rest r.2 r.1 (neighbor :: deque)
          else spfaEdges_claimC7 v rest r.2 r.1 (deque ++ [neighbor])
    else spfaEdges_claimC7 v rest edge_to dist_to deque

/-- Modelled from the spec: the outer SPFA loop over the claim's version
of the edge loop. -/
def spfaLoop_claimC7 (g : EdgeWeightedDiGraph) :
    Nat → List Nat → List Nat → List Int → SpfaResult
  | 0, _, _, _ => SpfaResult.out
  | _ + 1, [], edge_to, dist_to => SpfaResult.ok edge_to dist_to
  | fuel + 1, v :: deque, edge_to, dist_to =>
    match spfaEdges_claimC7 v (g.out_pairs v) edge_to dist_to deque with
    | (edge_to, dist_to, deque) => spfaLoop_claimC7 g fuel deque edge_to dist_to

/-- Modelled from the spec: SPFA as the claim describes it. -/
def spfa_claimC7 (g : EdgeWeightedDiGraph) (source : Nat) (edge_to : List Nat)
    (dist_to : List Int) (fuel : Nat) : SpfaResult :=
  spfaLoop_claimC7 g fuel [source] edge_to (dist_to.set source 0)

namespace FordFulkerson

/-- The edge scan of `has_augmenting_path` for the out-edges of one
dequeued vertex: mark and record the predecessor of every unmarked
destination with positive residual capacity, returning early when the
overall destination is reached. -/
def bfsScan (destination vertex : Nat) :
    List FlowEdge → List Bool → List (Option Nat) → List Nat →
      Bool × List Bool × List (Option Nat) × List Nat
  | [], marked, edge_to, queue => (false, marked, edge_to, queue)
  | edge :: rest, marked, edge_to, queue =>
    let n_v := edge.dst
    if marked.getD n_v false = false ∧ 0 < edge.residual_capacity then
      let marked := marked.set n_v true
      let edge_to := edge_to.set n_v (some vertex)
      if n_v = destination then (true, marked, edge_to, queue)
      else bfsScan destination vertex rest marked edge_to (queue ++ [n_v])
    else bfsScan destination vertex rest marked edge_to queue

/-- The BFS queue loop of `has_augmenting_path`.  Every enqueued vertex
is marked when enqueued, so at most `nb_vertices` vertices are ever
popped; fuel `nb_vertices + 1` therefore never runs out. -/
def bfsLoop (network : FlowNetwork) (destination : Nat) :
    Nat → List Nat → List Bool → List (Option Nat) → Bool × List (Option Nat)
  | 0, _, _, edge_to => (false, edge_to)
  | _ + 1, [], _, edge_to => (false, edge_to)
  | fuel + 1, vertex :: queue, marked, edge_to =>
    match bfsScan destination vertex (network.out_edges.getD vertex []) marked
        edge_to queue with
    | (true, _, edge_to, _) => (true, edge_to)
    | (false, marked, edge_to, queue) =>
      bfsLoop network destination fuel queue marked edge_to

/-- `FordFulkerson::has_augmenting_path`: BFS from the source over
forward edges with strictly positive residual capacity, recording
predecessors in `edge_to` (which persists across rounds, as in the
source). -/
def has_augmenting_path (network : FlowNetwork) (source destination : Nat)
    (edge_to : List (Option Nat)) : Bool × List (Option Nat) :=
  let marked := (List.replicate network.nb_vertices false).set source true
  bfsLoop network destination (network.nb_vertices + 1) [source] marked edge_to

/-- The bottleneck walk of `find_flows`: follow the predecessor chain
from the destination, taking the minimum residual capacity of the
forward edge from each predecessor.  The chain has no repeated vertices,
so fuel `nb_vertices + 1` never runs out on the runs below.  The
`unwrap` on the located forward edge is modelled by a default of `0`
(the edge always exists, because `edge_to` entries are only ever written
while scanning an existing edge). -/
def bottleneck (network : FlowNetwork) :
    Nat → List (Option Nat) → Nat → Nat → Nat
  | 0, _, _, path_flow => path_flow
  | fuel + 1, edge_to, vertex, path_flow =>
    match edge_to.getD vertex none with
    | none => path_flow
    | some parent =>
      let res_cap :=
        (((network.out_edges.getD parent []).find? (fun e => e.dst = vertex)).map
            FlowEdge.residual_capacity).getD 0
      bottleneck network fuel edge_to parent (min path_flow res_cap)

/-- Update the first edge of a list satisfying the predicate (models
locating an edge through `iter_mut().find`). -/
def updateFirst (p : FlowEdge → Bool) (f : FlowEdge → FlowEdge) :
    List FlowEdge → List FlowEdge
  | [] => []
  | e :: rest => if p e then f e :: rest else e :: updateFirst p f rest

/-- The augmentation walk of `find_flows`: along the predecessor chain,
add the bottleneck to the forward edge (located in the out-edges of the
parent) and to the paired backward edge (located in the back-edges of
the vertex). -/
def augment (network : FlowNetwork) :
    Nat → List (Option Nat) → Nat → Nat → FlowNetwork
  | 0, _, _, _ => network
  | fuel + 1, edge_to, vertex, path_flow =>
    match edge_to.getD vertex none with
    | none => network
    | some parent =>
      let network1 :=
        { network with
            out_edges := network.out_edges.set parent
              (updateFirst (fun e => e.dst = vertex)
                (fun e => e.add_residual_flow_to vertex path_flow)
                (network.out_edges.getD parent [])) }
      let network2 :=
        { network1 with
            back_edges := network1.back_edges.set vertex
              (updateFirst (fun e => e.dst = parent)
                (fun e => e.add_residual_flow_to parent path_flow)
                (network1.back_edges.getD vertex [])) }
      augment network2 fuel edge_to parent path_flow

/-- The augmenting-round loop of `FordFulkerson::find_flows`: while an
augmenting path exists, compute its bottleneck, push it along the path
and accumulate it.  Returns `none` when the round fuel is exhausted
(which proves nothing about the source); `some` results correspond to an
actual termination of the Rust `while` loop. -/
def findFlowsLoop (source destination : Nat) :
    Nat → FlowNetwork → List (Option Nat) → Nat → Option (FlowNetwork × Nat)
  | 0, _, _, _ => none
  | fuel + 1, network, edge_to, max_flow =>
    match has_augmenting_path network source destination edge_to with
    | (false, _) => some (network, max_flow)
    | (true, edge_to) =>
      let wfuel := network.nb_vertices + 1
      let path_flow := bottleneck network wfuel edge_to destination 255
      let network := augment network wfuel edge_to destination path_flow
      findFlowsLoop source destination fuel network edge_to (max_flow + path_flow)

/-- `FordFulkerson::find_flows` followed by `max_flow()`: `some` of the
accumulated total when the round loop terminates within the given fuel
(the initial `path_flow` of each round is `W::maximum() = 255` for
`W = u8`). -/
def find_flows_max_flow (network : FlowNetwork) (source destination fuel : Nat) :
    Option Nat :=
  (findFlowsLoop source destination fuel network
      (List.replicate network.nb_vertices none) 0).map (fun r => r.2)

end FordFulkerson

end Algods

namespace Algods

/-- The 6-vertex CLRS flow network of the regression test
maxflow_mincut/unit_test.rs, built over `W = u8` with zero initial
flows. -/
def clrsNetwork : FlowNetwork :=
  (((((((((FlowNetwork.init 6).add_edge 0 1 0 16).add_edge 0 2 0 13).add_edge
    1 3 0 12).add_edge 2 1 0 4).add_edge 2 4 0 14).add_edge 3 2 0 9).add_edge
    3 5 0 20).add_edge 4 3 0 7).add_edge 4 5 0 4

/-- The 13-vertex directed example graph of
directed_graph/unit_test.rs (test_strong_connected_components). -/
def sccExampleGraph : DiGraph :=
  [(0, 1), (0, 5), (2, 0), (2, 3), (3, 2), (3, 5), (4, 2), (4, 3), (5, 4),
    (6, 0), (6, 4), (6, 8), (6, 9), (7, 6), (7, 9), (8, 6), (9, 10), (9, 11),
    (10, 12), (11, 4), (11, 12), (12, 9)].foldl
    (fun g p => g.add_edge p.1 p.2) (DiGraph.init 13)

/-- The component state produced by running
`StrongConnectedComponent::find` on the example graph. -/
def sccExampleState : SCCState :=
  StrongConnectedComponent.find sccExampleGraph (StrongConnectedComponent.init 13)

/-- Reading a freshly set entry. -/
theorem getD_set_self {α : Type} (l : List α) (i : Nat) (a d : α)
    (h : i < l.length) : (l.set i a).getD i d = a := by
  induction l generalizing i with
  | nil => simp at h
  | cons x l ih =>
    cases i with
    | zero => rfl
    | succ i => simpa using ih i (by simpa using h)

/-- Reading an entry other than the one set. -/
theorem getD_set_ne {α : Type} (l : List α) (i j : Nat) (a d : α)
    (h : i ≠ j) : (l.set i a).getD j d = l.getD j d := by
  induction l generalizing i j with
  | nil => rfl
  | cons x l ih =>
    cases i with
    | zero =>
      cases j with
      | zero => exact absurd rfl h
      | succ j => rfl
    | succ i =>
      cases j with
      | zero => rfl
      | succ j => simpa using ih i j (by simpa using h)

/-- Setting an entry to its current value is the identity. -/
theorem set_getD_self {α : Type} (l : List α) (i : Nat) (d : α)
    (h : i < l.length) : l.set i (l.getD i d) = l := by
  induction l generalizing i with
  | nil => rfl
  | cons x l ih =>
    cases i with
    | zero => rfl
    | succ i => simpa using ih i (by simpa using h)

/-- Membership in a `HashSet` after an insertion. -/
theorem mem_hsInsert {α : Type} [DecidableEq α] (l : List α) (x y : α) :
    y ∈ (hsInsert l x).1 ↔ y ∈ l ∨ y = x := by
  unfold hsInsert
  by_cases h : x ∈ l
  · simp only [if_pos h]
    exact ⟨fun hy => Or.inl hy, fun hy => hy.elim id (fun hy => hy ▸ h)⟩
  · simp [if_neg h]

namespace DiGraph

/-- A vertex with a nonempty adjacency set is within the adjacency
vector. -/
theorem lt_length_of_edgeMem {g : DiGraph} {u v : Nat} (h : edgeMem g u v) :
    u < g.out_edges.length := by
  by_contra hc
  have : g.adj u = [] := by
    unfold adj
    exact List.getD_eq_default _ _ (Nat.le_of_not_lt hc)
  rw [edgeMem, this] at h
  simp at h

/-- Targets of a well-formed graph are in range. -/
theorem WF.target_lt {g : DiGraph} (hwf : WF g) {u v : Nat}
    (h : edgeMem g u v) : v < g.nb_vertices := by
  have hu := lt_length_of_edgeMem h
  have hmem : g.adj u ∈ g.out_edges := by
    unfold adj
    rw [List.getD_eq_getElem _ _ hu]
    exact List.getElem_mem hu
  exact hwf.2 _ hmem _ h

end DiGraph

namespace DiGraph

/-- Membership after `add_edge`: the old edges plus the new one, which
only lands when the source index is within the adjacency vector (the
source asserts and panics otherwise on indexing). -/
theorem edgeMem_add_edge (g : DiGraph) (s t a b : Nat) :
    edgeMem (g.add_edge s t) a b ↔
      edgeMem g a b ∨ (a = s ∧ b = t ∧ s < g.out_edges.length) := by
  by_cases hs : s < g.out_edges.length
  · by_cases ha : a = s
    · subst ha
      show b ∈ (g.out_edges.set a _).getD a [] ↔ _
      rw [getD_set_self _ _ _ _ hs]
      rw [mem_hsInsert]
      unfold edgeMem adj
      constructor
      · rintro (h | h)
        · exact Or.inl h
        · exact Or.inr ⟨rfl, h, hs⟩
      · rintro (h | ⟨-, h, -⟩)
        · exact Or.inl h
        · exact Or.inr h
    · show b ∈ (g.out_edges.set s _).getD a [] ↔ _
      rw [getD_set_ne _ _ _ _ _ (fun hc => ha hc.symm)]
      unfold edgeMem adj
      constructor
      · exact fun h => Or.inl h
      · rintro (h | ⟨hc, -, -⟩)
        · exact h
        · exact absurd hc ha
  · have hset : g.out_edges.set s (hsInsert (g.out_edges.getD s []) t).1 =
        g.out_edges :=
      List.set_eq_of_length_le (Nat.le_of_not_lt hs)
    show b ∈ (g.out_edges.set s _).getD a [] ↔ _
    rw [hset]
    unfold edgeMem adj
    constructor
    · exact fun h => Or.inl h
    · rintro (h | ⟨-, -, hc⟩)
      · exact h
      · exact absurd hc hs

@[simp]
theorem out_edges_length_add_edge (g : DiGraph) (s t : Nat) :
    (g.add_edge s t).out_edges.length = g.out_edges.length :=
  List.length_set _ _ _

@[simp]
theorem nb_vertices_add_edge (g : DiGraph) (s t : Nat) :
    (g.add_edge s t).nb_vertices = g.nb_vertices := rfl

/-- One `reverseStep` in terms of `add_edge`. -/
theorem edgeMem_reverseStep (v : Nat) (rg : DiGraph) (w a b : Nat) :
    edgeMem (reverseStep v rg w) a b ↔ edgeMem (rg.add_edge w v) a b := Iff.rfl

@[simp]
theorem out_edges_length_reverseStep (v : Nat) (rg : DiGraph) (w : Nat) :
    (reverseStep v rg w).out_edges.length = rg.out_edges.length :=
  List.length_set _ _ _

@[simp]
theorem nb_vertices_reverseStep (v : Nat) (rg : DiGraph) (w : Nat) :
    (reverseStep v rg w).nb_vertices = rg.nb_vertices := rfl

/-- Membership after the inner loop of `reverse` over a neighbour list
`ws` of the fixed original vertex `v`. -/
theorem edgeMem_reverse_inner (v : Nat) (n : Nat) :
    ∀ (ws : List Nat) (rg : DiGraph), rg.out_edges.length = n →
      (ws.foldl (reverseStep v) rg).out_edges.length = n ∧
        (ws.foldl (reverseStep v) rg).nb_vertices = rg.nb_vertices ∧
        ∀ a b, edgeMem (ws.foldl (reverseStep v) rg) a b ↔
          edgeMem rg a b ∨ (a ∈ ws ∧ b = v ∧ a < n) := by
  intro ws
  induction ws with
  | nil =>
    intro rg hlen
    exact ⟨hlen, rfl, fun a b => by simp⟩
  | cons w ws ih =>
    intro rg hlen
    have hlen1 : (reverseStep v rg w).out_edges.length = n := by
      rw [out_edges_length_reverseStep]; exact hlen
    obtain ⟨h1, h2, h3⟩ := ih (reverseStep v rg w) hlen1
    refine ⟨h1, by rw [List.foldl_cons, h2, nb_vertices_reverseStep], fun a b => ?_⟩
    rw [List.foldl_cons, h3 a b, edgeMem_reverseStep, edgeMem_add_edge, hlen]
    constructor
    · rintro ((h | ⟨ha, hb, hw⟩) | ⟨ha, hb, hlt⟩)
      · exact Or.inl h
      · exact Or.inr ⟨by rw [ha]; exact List.mem_cons_self _ _, hb, ha ▸ hw⟩
      · exact Or.inr ⟨List.mem_cons_of_mem _ ha, hb, hlt⟩
    · rintro (h | ⟨ha, hb, hlt⟩)
      · exact Or.inl (Or.inl h)
      · rcases List.mem_cons.mp ha with h1 | h1
        · exact Or.inl (Or.inr ⟨h1, hb, h1 ▸ hlt⟩)
        · exact Or.inr ⟨h1, hb, hlt⟩

/-- Membership after the outer loop of `reverse` over a vertex list. -/
theorem edgeMem_reverse_outer (g : DiGraph) (n : Nat) :
    ∀ (vs : List Nat) (rg : DiGraph), rg.out_edges.length = n →
      (vs.foldl (fun rg v => (g.adj v).foldl (reverseStep v) rg) rg).out_edges.length
          = n ∧
        (vs.foldl (fun rg v => (g.adj v).foldl (reverseStep v) rg) rg).nb_vertices
          = rg.nb_vertices ∧
        ∀ a b,
          edgeMem (vs.foldl (fun rg v => (g.adj v).foldl (reverseStep v) rg) rg) a b ↔
            edgeMem rg a b ∨ (b ∈ vs ∧ a ∈ g.adj b ∧ a < n) := by
  intro vs
  induction vs with
  | nil =>
    intro rg hlen
    exact ⟨hlen, rfl, fun a b => by simp⟩
  | cons v vs ih =>
    intro rg hlen
    obtain ⟨i1, i2, i3⟩ := edgeMem_reverse_inner v n (g.adj v) rg hlen
    obtain ⟨h1, h2, h3⟩ := ih ((g.adj v).foldl (reverseStep v) rg) i1
    refine ⟨h1, by rw [List.foldl_cons, h2, i2], fun a b => ?_⟩
    rw [List.foldl_cons, h3 a b, i3 a b]
    constructor
    · rintro ((h | ⟨ha, hb, hlt⟩) | ⟨hb, ha, hlt⟩)
      · exact Or.inl h
      · exact Or.inr ⟨by rw [hb]; exact List.mem_cons_self _ _, hb ▸ ha, hlt⟩
      · exact Or.inr ⟨List.mem_cons_of_mem _ hb, ha, hlt⟩
    · rintro (h | ⟨hb, ha, hlt⟩)
      · exact Or.inl (Or.inl h)
      · rcases List.mem_cons.mp hb with h1 | h1
        · exact Or.inl (Or.inr ⟨h1 ▸ ha, h1, hlt⟩)
        · exact Or.inr ⟨h1, ha, hlt⟩

@[simp]
theorem out_edges_length_init (n : Nat) : (init n).out_edges.length = n :=
  List.length_replicate _ _

@[simp]
theorem nb_vertices_init (n : Nat) : (init n).nb_vertices = n := rfl

theorem edgeMem_init (n a b : Nat) : ¬ edgeMem (init n) a b := by
  unfold edgeMem adj init
  intro h
  have : (List.replicate n ([] : List Nat)).getD a [] = [] := by
    by_cases ha : a < n
    · rw [List.getD_eq_getElem _ _ (by simpa using ha)]
      simp
    · exact List.getD_eq_default _ _ (by simpa using Nat.le_of_not_lt ha)
  rw [this] at h
  simp at h

/-- Structure of the reversed graph. -/
theorem reverse_spec (g : DiGraph) :
    g.reverse.out_edges.length = g.nb_vertices ∧
      g.reverse.nb_vertices = g.nb_vertices ∧
      ∀ a b, edgeMem g.reverse a b ↔
        b < g.nb_vertices ∧ edgeMem g b a ∧ a < g.nb_vertices := by
  obtain ⟨h1, h2, h3⟩ :=
    edgeMem_reverse_outer g g.nb_vertices (List.range g.nb_vertices)
      (init g.nb_vertices) (out_edges_length_init _)
  unfold reverse
  refine ⟨h1, h2.trans rfl, fun a b => ?_⟩
  rw [h3 a b]
  constructor
  · rintro (h | ⟨hb, ha, hlt⟩)
    · exact absurd h (edgeMem_init _ _ _)
    · exact ⟨List.mem_range.mp hb, ha, hlt⟩
  · rintro ⟨hb, ha, hlt⟩
    exact Or.inr ⟨List.mem_range.mpr hb, ha, hlt⟩

/-- The reversed graph is always well-formed. -/
theorem WF_reverse (g : DiGraph) : WF g.reverse := by
  obtain ⟨h1, h2, h3⟩ := reverse_spec g
  refine ⟨by rw [h1, h2], fun l hl t ht => ?_⟩
  obtain ⟨⟨i, hi⟩, rfl⟩ := List.mem_iff_get.mp hl
  have hedge : edgeMem g.reverse i t := by
    unfold edgeMem adj
    rw [List.getD_eq_getElem _ _ hi]
    rw [List.get_eq_getElem] at ht
    exact ht
  rw [h2]
  exact ((h3 i t).mp hedge).1

end DiGraph

namespace DiGraph

/-- Re-inserting an already present edge is a complete no-op on the
graph structure. -/
theorem add_edge_self (g : DiGraph) (u v : Nat) (h : edgeMem g u v) :
    g.add_edge u v = g := by
  have hu : u < g.out_edges.length := lt_length_of_edgeMem h
  have hmem : v ∈ g.out_edges.getD u [] := h
  unfold add_edge
  rw [show hsInsert (g.out_edges.getD u []) v = (g.out_edges.getD u [], false) from by
    unfold hsInsert; rw [if_pos hmem]]
  simp only [if_neg Bool.false_ne_true, Nat.add_zero]
  rw [set_getD_self _ _ _ hu]

/-- Adding a fresh edge appends it and bumps the counter. -/
theorem add_edge_fresh_count (g : DiGraph) (u v : Nat) (h : ¬ edgeMem g u v) :
    (g.add_edge u v).nb_edges = g.nb_edges + 1 := by
  have hmem : v ∉ g.out_edges.getD u [] := h
  unfold add_edge
  rw [show hsInsert (g.out_edges.getD u []) v = (g.out_edges.getD u [] ++ [v], true) from by
    unfold hsInsert; rw [if_neg hmem]]
  rfl

/-- Invariant of a sequence of `DiGraph::add_edge` calls: the edge set
is the set of added ordered pairs and `nb_edges` counts it. -/
theorem buildDi_spec (n : Nat) :
    ∀ (pairs : List (Nat × Nat)) (g : DiGraph) (S : Finset (Nat × Nat)),
      (∀ p ∈ pairs, p.1 < n ∧ p.2 < n) →
      g.out_edges.length = n → g.nb_vertices = n →
      (∀ a b, edgeMem g a b ↔ (a, b) ∈ S) →
      g.nb_edges = S.card →
      (pairs.foldl (fun g p => g.add_edge p.1 p.2) g).out_edges.length = n ∧
        (pairs.foldl (fun g p => g.add_edge p.1 p.2) g).nb_vertices = n ∧
        (∀ a b, edgeMem (pairs.foldl (fun g p => g.add_edge p.1 p.2) g) a b ↔
          (a, b) ∈ S ∪ pairs.toFinset) ∧
        (pairs.foldl (fun g p => g.add_edge p.1 p.2) g).nb_edges =
          (S ∪ pairs.toFinset).card := by
  intro pairs
  induction pairs with
  | nil =>
    intro g S hin hlen hn hchar hcount
    simpa using ⟨hlen, hn, hchar, hcount⟩
  | cons p ps ih =>
    intro g S hin hlen hn hchar hcount
    have hp := hin p (List.mem_cons_self _ _)
    have hunion : S ∪ (p :: ps).toFinset = insert p S ∪ ps.toFinset := by
      rw [List.toFinset_cons]
      rw [Finset.union_insert, Finset.insert_union]
    by_cases hmem : edgeMem g p.1 p.2
    · have hnoop : g.add_edge p.1 p.2 = g := add_edge_self g p.1 p.2 hmem
      have hins : insert p S = S := by
        apply Finset.insert_eq_self.mpr
        exact (hchar p.1 p.2).mp hmem
      rw [List.foldl_cons, hnoop, hunion, hins]
      exact ih g S (fun q hq => hin q (List.mem_cons_of_mem _ hq)) hlen hn hchar hcount
    · have hlen1 : (g.add_edge p.1 p.2).out_edges.length = n := by
        rw [out_edges_length_add_edge]; exact hlen
      have hchar1 : ∀ a b, edgeMem (g.add_edge p.1 p.2) a b ↔ (a, b) ∈ insert p S := by
        intro a b
        rw [edgeMem_add_edge, hchar, hlen]
        constructor
        · rintro (h | ⟨ha, hb, -⟩)
          · exact Finset.mem_insert_of_mem h
          · rw [ha, hb]
            exact Finset.mem_insert_self p S
        · intro h
          rcases Finset.mem_insert.mp h with h | h
          · exact Or.inr ⟨congrArg Prod.fst h, congrArg Prod.snd h, hp.1⟩
          · exact Or.inl h
      have hcount1 : (g.add_edge p.1 p.2).nb_edges = (insert p S).card := by
        rw [add_edge_fresh_count g p.1 p.2 hmem, hcount,
          Finset.card_insert_of_not_mem (fun hc => hmem ((hchar p.1 p.2).mpr hc))]
      rw [List.foldl_cons, hunion]
      exact ih (g.add_edge p.1 p.2) (insert p S)
        (fun q hq => hin q (List.mem_cons_of_mem _ hq)) hlen1 (by rw [nb_vertices_add_edge]; exact hn)
        hchar1 hcount1

end DiGraph

/-- The unordered-pair normal form used to count undirected edges. -/
def normPair (p : Nat × Nat) : Nat × Nat :=
  (min p.1 p.2, max p.1 p.2)

theorem normPair_swap (a b : Nat) : normPair (a, b) = normPair (b, a) := by
  unfold normPair
  simp [Nat.min_comm, Nat.max_comm]

theorem normPair_eq_iff (a b c d : Nat) :
    normPair (a, b) = normPair (c, d) ↔ (a = c ∧ b = d) ∨ (a = d ∧ b = c) := by
  constructor
  · intro h
    have h1 : min a b = min c d := congrArg Prod.fst h
    have h2 : max a b = max c d := congrArg Prod.snd h
    omega
  · rintro (⟨rfl, rfl⟩ | ⟨rfl, rfl⟩)
    · rfl
    · exact normPair_swap _ _

namespace Graph

theorem lt_length_of_edgeMemUn {g : Graph} {u v : Nat} (h : edgeMem g u v) :
    u < g.data.length := by
  by_contra hc
  have : g.adj u = [] := by
    unfold adj
    exact List.getD_eq_default _ _ (Nat.le_of_not_lt hc)
  rw [edgeMem, this] at h
  simp at h

/-- Re-inserting an edge whose two records are both present is a
complete no-op. -/
theorem add_edge_selfUn (g : Graph) (v w : Nat) (h1 : edgeMem g v w)
    (h2 : edgeMem g w v) : g.add_edge v w = g := by
  have hv : v < g.data.length := lt_length_of_edgeMemUn h1
  have hw : w < g.data.length := lt_length_of_edgeMemUn h2
  have hm1 : w ∈ g.data.getD v [] := h1
  unfold add_edge
  rw [show hsInsert (g.data.getD v []) w = (g.data.getD v [], false) from by
    unfold hsInsert; rw [if_pos hm1]]
  simp only
  rw [set_getD_self _ _ _ hv]
  have hm2 : v ∈ g.data.getD w [] := h2
  rw [show hsInsert (g.data.getD w []) v = (g.data.getD w [], false) from by
    unfold hsInsert; rw [if_pos hm2]]
  simp only [Bool.or_self, if_neg Bool.false_ne_true, Nat.add_zero]
  rw [set_getD_self _ _ _ hw]

/-- Adding a fresh non-loop edge (neither record present): both records
are appended and the counter is bumped. -/
theorem add_edge_fresh (g : Graph) (v w : Nat)
    (hvw : v ≠ w) (h1 : ¬ edgeMem g v w) (h2 : ¬ edgeMem g w v) :
    g.add_edge v w =
      { data := (g.data.set v (g.adj v ++ [w])).set w (g.adj w ++ [v])
        nb_edges := g.nb_edges + 1
        nb_vertices := g.nb_vertices } := by
  have hm1 : w ∉ g.data.getD v [] := h1
  have hm2 : v ∉ g.data.getD w [] := h2
  unfold add_edge
  rw [show hsInsert (g.data.getD v []) w = (g.data.getD v [] ++ [w], true) from by
    unfold hsInsert; rw [if_neg hm1]]
  simp only
  rw [show ((g.data.set v (g.data.getD v [] ++ [w])).getD w [] : List Nat) =
      g.data.getD w [] from getD_set_ne _ _ _ _ _ hvw]
  rw [show hsInsert (g.data.getD w []) v = (g.data.getD w [] ++ [v], true) from by
    unfold hsInsert; rw [if_neg hm2]]
  rfl

/-- Adding a fresh self-loop: one record is appended and the counter is
bumped. -/
theorem add_edge_fresh_loop (g : Graph) (v : Nat) (hv : v < g.data.length)
    (h1 : ¬ edgeMem g v v) :
    g.add_edge v v =
      { data := g.data.set v (g.adj v ++ [v])
        nb_edges := g.nb_edges + 1
        nb_vertices := g.nb_vertices } := by
  have hm1 : v ∉ g.data.getD v [] := h1
  unfold add_edge
  rw [show hsInsert (g.data.getD v []) v = (g.data.getD v [] ++ [v], true) from by
    unfold hsInsert; rw [if_neg hm1]]
  simp only
  rw [show ((g.data.set v (g.data.getD v [] ++ [v])).getD v [] : List Nat) =
      g.data.getD v [] ++ [v] from getD_set_self _ _ _ _ (by simpa using hv)]
  rw [show hsInsert (g.data.getD v [] ++ [v]) v = (g.data.getD v [] ++ [v], false) from by
    unfold hsInsert; rw [if_pos (by simp)]]
  simp only [Bool.false_or, if_pos rfl]
  have : (g.data.set v (g.data.getD v [] ++ [v])).set v (g.data.getD v [] ++ [v]) =
      g.data.set v (g.data.getD v [] ++ [v]) := List.set_set _ _ _ _
  rw [this]
  rfl

end Graph

namespace Graph

/-- Membership after adding a fresh non-loop edge. -/
theorem edgeMem_add_edge_fresh (g : Graph) (v w a b : Nat)
    (hv : v < g.data.length) (hw : w < g.data.length)
    (hvw : v ≠ w) (h1 : ¬ edgeMem g v w) (h2 : ¬ edgeMem g w v) :
    edgeMem (g.add_edge v w) a b ↔
      edgeMem g a b ∨ (a = v ∧ b = w) ∨ (a = w ∧ b = v) := by
  have hwv : w ≠ v := Ne.symm hvw
  rw [add_edge_fresh g v w hvw h1 h2]
  show b ∈ ((g.data.set v (g.adj v ++ [w])).set w (g.adj w ++ [v])).getD a [] ↔ _
  by_cases haw : a = w
  · subst haw
    rw [getD_set_self _ _ _ _ (by simpa using hw)]
    unfold edgeMem adj
    simp only [List.mem_append, List.mem_singleton]
    tauto
  · rw [getD_set_ne _ _ _ _ _ (fun hc => haw hc.symm)]
    by_cases hav : a = v
    · subst hav
      rw [getD_set_self _ _ _ _ (by simpa using hv)]
      unfold edgeMem adj
      simp only [List.mem_append, List.mem_singleton]
      tauto
    · rw [getD_set_ne _ _ _ _ _ (fun hc => hav hc.symm)]
      unfold edgeMem adj
      tauto

/-- Membership after adding a fresh self-loop. -/
theorem edgeMem_add_edge_fresh_loop (g : Graph) (v a b : Nat)
    (hv : v < g.data.length) (h1 : ¬ edgeMem g v v) :
    edgeMem (g.add_edge v v) a b ↔ edgeMem g a b ∨ (a = v ∧ b = v) := by
  rw [add_edge_fresh_loop g v hv h1]
  show b ∈ (g.data.set v (g.adj v ++ [v])).getD a [] ↔ _
  by_cases hav : a = v
  · subst hav
    rw [getD_set_self _ _ _ _ (by simpa using hv)]
    unfold edgeMem adj
    simp only [List.mem_append, List.mem_singleton]
    tauto
  · rw [getD_set_ne _ _ _ _ _ (fun hc => hav hc.symm)]
    unfold edgeMem adj
    tauto

@[simp]
theorem nb_vertices_add_edgeUn (g : Graph) (v w : Nat) :
    (g.add_edge v w).nb_vertices = g.nb_vertices := rfl

@[simp]
theorem data_length_add_edge (g : Graph) (v w : Nat) :
    (g.add_edge v w).data.length = g.data.length := by
  unfold add_edge
  simp only
  rw [List.length_set, List.length_set]

/-- Invariant of a sequence of `Graph::add_edge` calls: the stored edge
records are exactly the normalised added pairs and `nb_edges` counts the
distinct unordered pairs. -/
theorem buildUn_spec (n : Nat) :
    ∀ (pairs : List (Nat × Nat)) (g : Graph) (S : Finset (Nat × Nat)),
      (∀ p ∈ pairs, p.1 < n ∧ p.2 < n) →
      g.data.length = n → g.nb_vertices = n →
      (∀ a b, edgeMem g a b ↔ normPair (a, b) ∈ S) →
      g.nb_edges = S.card →
      (pairs.foldl (fun g p => g.add_edge p.1 p.2) g).data.length = n ∧
        (pairs.foldl (fun g p => g.add_edge p.1 p.2) g).nb_vertices = n ∧
        (∀ a b, edgeMem (pairs.foldl (fun g p => g.add_edge p.1 p.2) g) a b ↔
          normPair (a, b) ∈ S ∪ (pairs.map normPair).toFinset) ∧
        (pairs.foldl (fun g p => g.add_edge p.1 p.2) g).nb_edges =
          (S ∪ (pairs.map normPair).toFinset).card := by
  intro pairs
  induction pairs with
  | nil =>
    intro g S hin hlen hn hchar hcount
    simpa using ⟨hlen, hn, hchar, hcount⟩
  | cons p ps ih =>
    intro g S hin hlen hn hchar hcount
    have hp := hin p (List.mem_cons_self _ _)
    have hunion : S ∪ ((p :: ps).map normPair).toFinset =
        insert (normPair p) S ∪ (ps.map normPair).toFinset := by
      rw [List.map_cons, List.toFinset_cons, Finset.union_insert, Finset.insert_union]
    rw [List.foldl_cons, hunion]
    by_cases hmem : normPair p ∈ S
    · have h1 : edgeMem g p.1 p.2 := (hchar p.1 p.2).mpr hmem
      have h2 : edgeMem g p.2 p.1 := by
        apply (hchar p.2 p.1).mpr
        rw [normPair_swap]
        exact hmem
      have hnoop : g.add_edge p.1 p.2 = g := add_edge_selfUn g p.1 p.2 h1 h2
      have hins : insert (normPair p) S = S := Finset.insert_eq_self.mpr hmem
      rw [hnoop, hins]
      exact ih g S (fun q hq => hin q (List.mem_cons_of_mem _ hq)) hlen hn hchar hcount
    · have h1 : ¬ edgeMem g p.1 p.2 := fun hc => hmem ((hchar p.1 p.2).mp hc)
      have h2 : ¬ edgeMem g p.2 p.1 := fun hc => by
        have := (hchar p.2 p.1).mp hc
        rw [normPair_swap] at this
        exact hmem this
      have hcount1 : (g.add_edge p.1 p.2).nb_edges = (insert (normPair p) S).card := by
        have hfresh : (g.add_edge p.1 p.2).nb_edges = g.nb_edges + 1 := by
          by_cases hvw : p.1 = p.2
          · rw [show g.add_edge p.1 p.2 = g.add_edge p.1 p.1 from by rw [← hvw],
              add_edge_fresh_loop g p.1 (by rw [hlen]; exact hp.1) (by rw [hvw] at h1 ⊢; exact h1)]
          · rw [add_edge_fresh g p.1 p.2 hvw h1 h2]
        rw [hfresh, hcount, Finset.card_insert_of_not_mem hmem]
      have hchar1 : ∀ a b, edgeMem (g.add_edge p.1 p.2) a b ↔
          normPair (a, b) ∈ insert (normPair p) S := by
        intro a b
        by_cases hvw : p.1 = p.2
        · rw [show g.add_edge p.1 p.2 = g.add_edge p.1 p.1 from by rw [← hvw]]
          rw [edgeMem_add_edge_fresh_loop g p.1 a b (by rw [hlen]; exact hp.1)
            (by rw [hvw] at h1 ⊢; exact h1)]
          rw [hchar, Finset.mem_insert]
          constructor
          · rintro (h | ⟨rfl, rfl⟩)
            · exact Or.inr h
            · exact Or.inl (by rw [show (normPair p : Nat × Nat) = normPair (p.1, p.2) from rfl, ← hvw])
          · rintro (h | h)
            · right
              have := (normPair_eq_iff a b p.1 p.2).mp (by rw [show (normPair p : Nat × Nat) = normPair (p.1, p.2) from rfl] at h; exact h)
              rcases this with ⟨ha, hb⟩ | ⟨ha, hb⟩
              · exact ⟨ha, by rw [hb, ← hvw]⟩
              · exact ⟨by rw [ha, ← hvw], by rw [hb]⟩
            · exact Or.inl h
        · rw [edgeMem_add_edge_fresh g p.1 p.2 a b (by rw [hlen]; exact hp.1)
            (by rw [hlen]; exact hp.2) hvw h1 h2]
          rw [hchar, Finset.mem_insert]
          constructor
          · rintro (h | ⟨rfl, rfl⟩ | ⟨rfl, rfl⟩)
            · exact Or.inr h
            · exact Or.inl rfl
            · exact Or.inl (normPair_swap _ _)
          · rintro (h | h)
            · have := (normPair_eq_iff a b p.1 p.2).mp h
              rcases this with ⟨ha, hb⟩ | ⟨ha, hb⟩
              · exact Or.inr (Or.inl ⟨ha, hb⟩)
              · exact Or.inr (Or.inr ⟨ha, hb⟩)
            · exact Or.inl h
      exact ih (g.add_edge p.1 p.2) (insert (normPair p) S)
        (fun q hq => hin q (List.mem_cons_of_mem _ hq))
        (by rw [data_length_add_edge]; exact hlen)
        (by rw [nb_vertices_add_edgeUn]; exact hn) hchar1 hcount1

end Graph

/-- A directed graph built by a sequence of `add_edge` calls on
`init n`. -/
def DiGraph.build (n : Nat) (pairs : List (Nat × Nat)) : DiGraph :=
  pairs.foldl (fun g p => g.add_edge p.1 p.2) (DiGraph.init n)

/-- An undirected graph built by a sequence of `add_edge` calls on
`init n`. -/
def Graph.build (n : Nat) (pairs : List (Nat × Nat)) : Graph :=
  pairs.foldl (fun g p => g.add_edge p.1 p.2) (Graph.init n)

theorem Graph.edgeMem_initUn (n a b : Nat) : ¬ Graph.edgeMem (Graph.init n) a b := by
  unfold Graph.edgeMem Graph.adj Graph.init
  intro h
  have : (List.replicate n ([] : List Nat)).getD a [] = [] := by
    by_cases ha : a < n
    · rw [List.getD_eq_getElem _ _ (by simpa using ha)]
      simp
    · exact List.getD_eq_default _ _ (by simpa using Nat.le_of_not_lt ha)
  rw [this] at h
  simp at h

/-- Fold over a flatMap is the nested fold. -/
theorem foldl_flatMap {α β γ : Type} (f : γ → β → γ) (g : α → List β)
    (l : List α) (st : γ) :
    (l.flatMap g).foldl f st = l.foldl (fun st a => (g a).foldl f st) st := by
  induction l generalizing st with
  | nil => rfl
  | cons a l ih => simp [List.foldl_append, ih]

/-- Three vertices, an edge from 0 to 2 and an edge from 2 to 1: the
graph on which the embedded `bellman_ford` and the claim's reading of it
disagree. -/
def bellmanFordCexGraph : EdgeWeightedDiGraph :=
  ((EdgeWeightedDiGraph.init 3).add_edge 0 2 1).add_edge 2 1 1

/-- Two vertices and one edge from 0 to 1 of weight 5. -/
def spfaExampleGraph : EdgeWeightedDiGraph :=
  (EdgeWeightedDiGraph.init 2).add_edge 0 1 5

/-- The maximum sentinel of the `Weight` contract for `W = i32`. -/
def i32Maximum : Int := 2147483647

/-- The last element of a list with an element appended. -/
theorem getLastQ_snoc {α : Type} (l : List α) (a : α) :
    (l ++ [a]).getLast? = some a := by
  induction l with
  | nil => rfl
  | cons x l ih =>
    cases l with
    | nil => rfl
    | cons y l => simpa using ih

/-- If some out-edge of the vertex being processed improves a distance
while the deque is empty, the inner SPFA edge loop reaches the `expect`
on the missing front element and panics (`none`). -/
theorem spfaEdges_nil_of_improving (v : Nat) :
    ∀ (l : List (Nat × Int)) (edge_to : List Nat) (dist_to : List Int),
      (∃ p ∈ l, dist_to.getD v 0 + p.2 < dist_to.getD p.1 0) →
      spfaEdges v l edge_to dist_to [] = none := by
  intro l
  induction l with
  | nil => intro _ _ h; simp at h
  | cons p rest ih =>
    rcases p with ⟨nb, w⟩
    intro edge_to dist_to h
    by_cases himp : dist_to.getD v 0 + w < dist_to.getD nb 0
    · show spfaEdges v ((nb, w) :: rest) edge_to dist_to [] = none
      simp only [spfaEdges, if_pos himp]
      rfl
    · show spfaEdges v ((nb, w) :: rest) edge_to dist_to [] = none
      simp only [spfaEdges, if_neg himp]
      apply ih
      rcases h with ⟨q, hq, hlt⟩
      rcases List.mem_cons.mp hq with h1 | h1
      · exact absurd (by simpa [h1] using hlt) himp
      · exact ⟨q, h1, hlt⟩

end Algods

namespace Algods

/-- Adjacency bound: every neighbour of every vertex is below `n`. -/
def WFadj (n : Nat) (adjF : Nat → List Nat) : Prop :=
  ∀ v, ∀ u ∈ adjF v, u < n

/-- Reachability along the adjacency function. -/
def ReachF (adjF : Nat → List Nat) : Nat → Nat → Prop :=
  Relation.ReflTransGen (fun x y => y ∈ adjF x)

/-- Acyclicity: no edge closes a cycle. -/
def AcycF (adjF : Nat → List Nat) : Prop :=
  ∀ a b, b ∈ adjF a → ¬ ReachF adjF b a

/-- A directed graph is acyclic when its adjacency relation is. -/
def DiGraph.Acyclic (g : DiGraph) : Prop :=
  AcycF (DiGraph.adj g)

/-- The still unvisited vertex positions below `n`. -/
def unseen (n : Nat) (m : List Bool) : Finset Nat :=
  (Finset.range n).filter (fun v => ¬ (m.getD v false = true))

/-- `a` occurs strictly before `b` in the list. -/
def Before (L : List Nat) (a b : Nat) : Prop :=
  ∃ l1 l2, L = l1 ++ l2 ∧ a ∈ l1 ∧ b ∈ l2

theorem Before.append_right {L : List Nat} {a b : Nat} (h : Before L a b)
    (K : List Nat) : Before (L ++ K) a b := by
  obtain ⟨l1, l2, rfl, ha, hb⟩ := h
  exact ⟨l1, l2 ++ K, by rw [List.append_assoc], ha, List.mem_append_left _ hb⟩

theorem Before.of_mem_append {L K : List Nat} {a b : Nat} (ha : a ∈ L)
    (hb : b ∈ K) : Before (L ++ K) a b :=
  ⟨L, K, rfl, ha, hb⟩

theorem Before.reverse {L : List Nat} {a b : Nat} (h : Before L a b) :
    Before L.reverse b a := by
  obtain ⟨l1, l2, rfl, ha, hb⟩ := h
  exact ⟨l2.reverse, l1.reverse, by rw [List.reverse_append],
    List.mem_reverse.mpr hb, List.mem_reverse.mpr ha⟩

/-- Marking monotonicity of a single set-true. -/
theorem getD_set_true_mono (m : List Bool) (v w : Nat)
    (h : m.getD w false = true) : (m.set v true).getD w false = true := by
  by_cases hvw : v = w
  · subst hvw
    by_cases hv : v < m.length
    · rw [getD_set_self _ _ _ _ hv]
    · rw [List.set_eq_of_length_le (Nat.le_of_not_lt hv)]
      exact h
  · rw [getD_set_ne _ _ _ _ _ hvw]
    exact h

/-- Reading the marks after a set-true, in-range case. -/
theorem getD_set_true_iff (m : List Bool) (v w : Nat) (hv : v < m.length) :
    (m.set v true).getD w false = true ↔ (w = v ∨ m.getD w false = true) := by
  by_cases hvw : w = v
  · subst hvw
    rw [getD_set_self _ _ _ _ hv]
    simp
  · rw [getD_set_ne _ _ _ _ _ (fun hc => hvw hc.symm)]
    constructor
    · exact fun h => Or.inr h
    · rintro (h | h)
      · exact absurd h hvw
      · exact h

theorem unseen_subset (n : Nat) {m m2 : List Bool}
    (h : ∀ w, m.getD w false = true → m2.getD w false = true) :
    unseen n m2 ⊆ unseen n m := by
  intro v hv
  rw [unseen, Finset.mem_filter] at hv ⊢
  exact ⟨hv.1, fun hc => hv.2 (h v hc)⟩

theorem card_unseen_le (n : Nat) {m m2 : List Bool}
    (h : ∀ w, m.getD w false = true → m2.getD w false = true) :
    (unseen n m2).card ≤ (unseen n m).card :=
  Finset.card_le_card (unseen_subset n h)

theorem mem_unseen (n : Nat) (m : List Bool) (v : Nat) :
    v ∈ unseen n m ↔ v < n ∧ m.getD v false = false := by
  rw [unseen, Finset.mem_filter, Finset.mem_range]
  constructor
  · rintro ⟨h1, h2⟩
    refine ⟨h1, ?_⟩
    cases hb : m.getD v false
    · rfl
    · exact absurd hb h2
  · rintro ⟨h1, h2⟩
    refine ⟨h1, fun hc => ?_⟩
    rw [h2] at hc
    simp at hc

theorem card_unseen_set_true (n : Nat) (m : List Bool) (v : Nat) (hv : v < n)
    (hlen : v < m.length) (hm : m.getD v false = false) :
    (unseen n (m.set v true)).card + 1 = (unseen n m).card := by
  have hset : unseen n (m.set v true) = (unseen n m).erase v := by
    ext w
    rw [mem_unseen, Finset.mem_erase, mem_unseen]
    by_cases hwv : w = v
    · subst hwv
      rw [getD_set_self _ _ _ _ hlen]
      simp
    · rw [getD_set_ne _ _ _ _ _ (fun hc => hwv hc.symm)]
      simp [hwv]
  rw [hset, Finset.card_erase_of_mem ((mem_unseen n m v).mpr ⟨hv, hm⟩)]
  have hpos : 0 < (unseen n m).card :=
    Finset.card_pos.mpr ⟨v, (mem_unseen n m v).mpr ⟨hv, hm⟩⟩
  omega

/-- The marks array keeps its length through `dfs`. -/
theorem dfs_length (adjF : Nat → List Nat) :
    ∀ (fuel origin comp : Nat) (mut_e is_comp : Bool) (m : List Bool) (e : List Nat),
      (dfs adjF fuel origin comp mut_e is_comp m e).1.length = m.length := by
  intro fuel
  induction fuel with
  | zero => intro origin comp mut_e isc m e; rfl
  | succ fuel ih =>
    intro origin comp mut_e isc m e
    have hfold : ∀ (l : List Nat) (st : List Bool × List Nat),
        ((l.foldl (fun st u => if st.1.getD u false = true then st
            else
              let st1 := dfs adjF fuel u comp mut_e isc st.1 st.2
              (st1.1, st1.2.set u (if isc then comp else origin))) st).1.length
          = st.1.length) ∧
        ((l.foldl (fun st u => if st.1.getD u false = true then st
            else dfs adjF fuel u comp mut_e isc st.1 st.2) st).1.length
          = st.1.length) := by
      intro l
      induction l with
      | nil => intro st; exact ⟨rfl, rfl⟩
      | cons u l ihl =>
        intro st
        constructor
        · rw [List.foldl_cons]
          by_cases hu : st.1.getD u false = true
          · rw [if_pos hu]
            exact (ihl st).1
          · rw [if_neg hu]
            refine ((ihl _).1).trans ?_
            exact ih u comp mut_e isc st.1 st.2
        · rw [List.foldl_cons]
          by_cases hu : st.1.getD u false = true
          · rw [if_pos hu]
            exact (ihl st).2
          · rw [if_neg hu]
            refine ((ihl _).2).trans ?_
            exact ih u comp mut_e isc st.1 st.2
    cases mut_e with
    | true =>
      show ((adjF origin).foldl _ (m.set origin true, e)).1.length = m.length
      refine (hfold (adjF origin) (m.set origin true, e)).1.trans ?_
      exact List.length_set _ _ _
    | false =>
      show (((adjF origin).foldl _ (m.set origin true, e)).1, _).1.length = m.length
      refine (hfold (adjF origin) (m.set origin true, e)).2.trans ?_
      exact List.length_set _ _ _

/-- Marks only ever grow through `dfs`. -/
theorem dfs_mono (adjF : Nat → List Nat) :
    ∀ (fuel origin comp : Nat) (mut_e is_comp : Bool) (m : List Bool) (e : List Nat)
      (w : Nat), m.getD w false = true →
      (dfs adjF fuel origin comp mut_e is_comp m e).1.getD w false = true := by
  intro fuel
  induction fuel with
  | zero => intro origin comp mut_e isc m e w h; exact h
  | succ fuel ih =>
    intro origin comp mut_e isc m e w h
    have hfold : ∀ (l : List Nat) (st : List Bool × List Nat),
        st.1.getD w false = true →
        ((l.foldl (fun st u => if st.1.getD u false = true then st
            else
              let st1 := dfs adjF fuel u comp mut_e isc st.1 st.2
              (st1.1, st1.2.set u (if isc then comp else origin))) st).1.getD w false
          = true) ∧
        ((l.foldl (fun st u => if st.1.getD u false = true then st
            else dfs adjF fuel u comp mut_e isc st.1 st.2) st).1.getD w false
          = true) := by
      intro l
      induction l with
      | nil => intro st hst; exact ⟨hst, hst⟩
      | cons u l ihl =>
        intro st hst
        constructor
        · rw [List.foldl_cons]
          by_cases hu : st.1.getD u false = true
          · rw [if_pos hu]
            exact (ihl st hst).1
          · rw [if_neg hu]
            exact (ihl ((dfs adjF fuel u comp mut_e isc st.1 st.2).1,
              (dfs adjF fuel u comp mut_e isc st.1 st.2).2.set u
                (if isc then comp else origin))
              (ih u comp mut_e isc st.1 st.2 w hst)).1
        · rw [List.foldl_cons]
          by_cases hu : st.1.getD u false = true
          · rw [if_pos hu]
            exact (ihl st hst).2
          · rw [if_neg hu]
            exact (ihl (dfs adjF fuel u comp mut_e isc st.1 st.2)
              (ih u comp mut_e isc st.1 st.2 w hst)).2
    have hstart : (m.set origin true).getD w false = true := getD_set_true_mono m _ _ h
    cases mut_e with
    | true => exact (hfold (adjF origin) (m.set origin true, e) hstart).1
    | false => exact (hfold (adjF origin) (m.set origin true, e) hstart).2

/-- `dfs` marks its origin (given positive fuel and an in-range
origin). -/
theorem dfs_marks_origin (adjF : Nat → List Nat) (fuel origin comp : Nat)
    (mut_e is_comp : Bool) (m : List Bool) (e : List Nat) (hfuel : 0 < fuel)
    (hlen : origin < m.length) :
    (dfs adjF fuel origin comp mut_e is_comp m e).1.getD origin false = true := by
  obtain ⟨k, rfl⟩ := Nat.exists_eq_add_of_lt hfuel
  rw [Nat.zero_add]
  have hstart : (m.set origin true).getD origin false = true :=
    getD_set_self _ _ _ _ hlen
  have hfold : ∀ (l : List Nat) (st : List Bool × List Nat),
      st.1.getD origin false = true →
      ((l.foldl (fun st u => if st.1.getD u false = true then st
          else
            let st1 := dfs adjF k u comp mut_e is_comp st.1 st.2
            (st1.1, st1.2.set u (if is_comp then comp else origin))) st).1.getD
          origin false = true) ∧
      ((l.foldl (fun st u => if st.1.getD u false = true then st
          else dfs adjF k u comp mut_e is_comp st.1 st.2) st).1.getD origin false
        = true) := by
    intro l
    induction l with
    | nil => intro st hst; exact ⟨hst, hst⟩
    | cons u l ihl =>
      intro st hst
      constructor
      · rw [List.foldl_cons]
        by_cases hu : st.1.getD u false = true
        · rw [if_pos hu]
          exact (ihl st hst).1
        · rw [if_neg hu]
          exact (ihl ((dfs adjF k u comp mut_e is_comp st.1 st.2).1,
            (dfs adjF k u comp mut_e is_comp st.1 st.2).2.set u
              (if is_comp then comp else origin))
            (dfs_mono adjF k u comp mut_e is_comp st.1 st.2 origin hst)).1
      · rw [List.foldl_cons]
        by_cases hu : st.1.getD u false = true
        · rw [if_pos hu]
          exact (ihl st hst).2
        · rw [if_neg hu]
          exact (ihl (dfs adjF k u comp mut_e is_comp st.1 st.2)
            (dfs_mono adjF k u comp mut_e is_comp st.1 st.2 origin hst)).2
  cases mut_e with
  | true => exact (hfold (adjF origin) (m.set origin true, e) hstart).1
  | false => exact (hfold (adjF origin) (m.set origin true, e) hstart).2

/-- Behaviour of order-recording `dfs` (no acyclicity needed): marks
only grow, the output list is extended by exactly the freshly marked
vertices (ending in the origin), the set of marked-but-unlisted
vertices is untouched, the list stays duplicate-free, and the origin
ends up listed.  The fuel hypothesis (at least the number of unvisited
vertices) makes the fuel-exhaustion branch unreachable, matching the
unbounded Rust recursion. -/
theorem dfs_order_basic (adjF : Nat → List Nat) (n : Nat) (hadj : WFadj n adjF) :
    ∀ (fuel : Nat) (origin comp : Nat) (m : List Bool) (L : List Nat),
      (unseen n m).card ≤ fuel →
      m.getD origin false = false → origin < n → m.length = n →
      (∀ w ∈ L, m.getD w false = true) → L.Nodup →
      (dfs adjF fuel origin comp false false m L).1.length = n ∧
        (∀ w, m.getD w false = true →
          (dfs adjF fuel origin comp false false m L).1.getD w false = true) ∧
        (∃ Δ, (dfs adjF fuel origin comp false false m L).2 = L ++ Δ ∧
          ∀ w ∈ Δ, m.getD w false = false ∧ w < n) ∧
        (∀ w, ((dfs adjF fuel origin comp false false m L).1.getD w false = true ∧
            w ∉ (dfs adjF fuel origin comp false false m L).2) ↔
          (m.getD w false = true ∧ w ∉ L)) ∧
        (∀ w ∈ (dfs adjF fuel origin comp false false m L).2,
          (dfs adjF fuel origin comp false false m L).1.getD w false = true) ∧
        (dfs adjF fuel origin comp false false m L).2.Nodup ∧
        origin ∈ (dfs adjF fuel origin comp false false m L).2 := by
  intro fuel
  induction fuel with
  | zero =>
    intro origin comp m L hbud horig hon hlen hlist hnd
    exfalso
    have hm : origin ∈ unseen n m := (mem_unseen n m origin).mpr ⟨hon, horig⟩
    have hp := Finset.card_pos.mpr ⟨origin, hm⟩
    omega
  | succ fuel ih =>
    intro origin comp m L hbud horig hon hlen hlist hnd
    have honl : origin < m.length := by rw [hlen]; exact hon
    have hr : dfs adjF (fuel + 1) origin comp false false m L =
        (((adjF origin).foldl
            (fun st u => if st.1.getD u false = true then st
              else dfs adjF fuel u comp false false st.1 st.2)
            (m.set origin true, L)).1,
          ((adjF origin).foldl
            (fun st u => if st.1.getD u false = true then st
              else dfs adjF fuel u comp false false st.1 st.2)
            (m.set origin true, L)).2 ++ [origin]) := rfl
    have hm1len : (m.set origin true).length = n := by
      rw [List.length_set]; exact hlen
    have horig1 : (m.set origin true).getD origin false = true :=
      getD_set_self _ _ _ _ honl
    have hm1iff : ∀ w, (m.set origin true).getD w false = true ↔
        (w = origin ∨ m.getD w false = true) :=
      fun w => getD_set_true_iff m origin w honl
    have hbud1 : (unseen n (m.set origin true)).card ≤ fuel := by
      have := card_unseen_set_true n m origin hon honl horig
      omega
    have go : ∀ (l : List Nat), (∀ u ∈ l, u ∈ adjF origin) →
        ∀ (mc : List Bool) (Lc : List Nat),
          mc.length = n → (∀ w ∈ Lc, mc.getD w false = true) → Lc.Nodup →
          (unseen n mc).card ≤ fuel →
          (l.foldl
              (fun st u => if st.1.getD u false = true then st
                else dfs adjF fuel u comp false false st.1 st.2)
              (mc, Lc)).1.length = n ∧
            (∀ w, mc.getD w false = true →
              (l.foldl (fun st u => if st.1.getD u false = true then st
                else dfs adjF fuel u comp false false st.1 st.2)
                (mc, Lc)).1.getD w false = true) ∧
            (∃ Δ, (l.foldl (fun st u => if st.1.getD u false = true then st
                else dfs adjF fuel u comp false false st.1 st.2)
                (mc, Lc)).2 = Lc ++ Δ ∧
              ∀ w ∈ Δ, mc.getD w false = false ∧ w < n) ∧
            (∀ w, ((l.foldl (fun st u => if st.1.getD u false = true then st
                  else dfs adjF fuel u comp false false st.1 st.2)
                  (mc, Lc)).1.getD w false = true ∧
                w ∉ (l.foldl (fun st u => if st.1.getD u false = true then st
                  else dfs adjF fuel u comp false false st.1 st.2)
                  (mc, Lc)).2) ↔
              (mc.getD w false = true ∧ w ∉ Lc)) ∧
            (∀ w ∈ (l.foldl (fun st u => if st.1.getD u false = true then st
                else dfs adjF fuel u comp false false st.1 st.2) (mc, Lc)).2,
              (l.foldl (fun st u => if st.1.getD u false = true then st
                else dfs adjF fuel u comp false false st.1 st.2)
                (mc, Lc)).1.getD w false = true) ∧
            (l.foldl (fun st u => if st.1.getD u false = true then st
              else dfs adjF fuel u comp false false st.1 st.2) (mc, Lc)).2.Nodup ∧
            (unseen n (l.foldl (fun st u => if st.1.getD u false = true then st
              else dfs adjF fuel u comp false false st.1 st.2) (mc, Lc)).1).card
              ≤ fuel ∧
            ∀ u ∈ l, (l.foldl (fun st u => if st.1.getD u false = true then st
              else dfs adjF fuel u comp false false st.1 st.2)
              (mc, Lc)).1.getD u false = true := by
      intro l
      induction l with
      | nil =>
        intro hl mc Lc h1 h2 h3 h4
        refine ⟨h1, fun w hw => hw, ⟨[], by simp, by simp⟩,
          fun w => Iff.rfl, h2, h3, h4, by simp⟩
      | cons u l ihl =>
        intro hl mc Lc h1 h2 h3 h4
        rw [List.foldl_cons]
        by_cases hu : mc.getD u false = true
        · rw [if_pos hu]
          obtain ⟨d1, d2, d3, d4, d5, d6, d7, d8⟩ :=
            ihl (fun x hx => hl x (List.mem_cons_of_mem _ hx)) mc Lc h1 h2 h3 h4
          refine ⟨d1, d2, d3, d4, d5, d6, d7, fun x hx => ?_⟩
          rcases List.mem_cons.mp hx with hx | hx
          · exact d2 x (hx ▸ hu)
          · exact d8 x hx
        · rw [if_neg hu]
          have huf : mc.getD u false = false := by
            cases hb : mc.getD u false
            · rfl
            · exact absurd hb hu
          have hun : u < n := hadj origin u (hl u (List.mem_cons_self _ _))
          obtain ⟨c1, c2, c3, c4, c5, c6, c7⟩ :=
            ih u comp mc Lc h4 huf hun h1 h2 h3
          have hcbud : (unseen n (dfs adjF fuel u comp false false mc Lc).1).card
              ≤ fuel :=
            Nat.le_trans (card_unseen_le n c2) h4
          have hclist : ∀ w ∈ (dfs adjF fuel u comp false false mc Lc).2,
              (dfs adjF fuel u comp false false mc Lc).1.getD w false = true := c5
          obtain ⟨d1, d2, d3, d4, d5, d6, d7, d8⟩ :=
            ihl (fun x hx => hl x (List.mem_cons_of_mem _ hx))
              (dfs adjF fuel u comp false false mc Lc).1
              (dfs adjF fuel u comp false false mc Lc).2 c1 hclist c6 hcbud
          refine ⟨d1, ?_, ?_, ?_, d5, d6, d7, ?_⟩
          · exact fun w hw => d2 w (c2 w hw)
          · obtain ⟨D1, hD1, hD1p⟩ := c3
            obtain ⟨D2, hD2, hD2p⟩ := d3
            refine ⟨D1 ++ D2, by rw [hD2, hD1, List.append_assoc], fun w hw => ?_⟩
            rcases List.mem_append.mp hw with hw | hw
            · exact hD1p w hw
            · refine ⟨?_, (hD2p w hw).2⟩
              cases hb : mc.getD w false
              · rfl
              · have := c2 w hb
                rw [(hD2p w hw).1] at this
                simp at this
          · exact fun w => (d4 w).trans (c4 w)
          · intro x hx
            rcases List.mem_cons.mp hx with hx | hx
            · subst hx
              exact d2 x (c5 x c7)
            · exact d8 x hx
    have hbase : ∀ w ∈ L, (m.set origin true).getD w false = true :=
      fun w hw => getD_set_true_mono m _ _ (hlist w hw)
    obtain ⟨g1, g2, g3, g4, g5, g6, g7, g8⟩ :=
      go (adjF origin) (fun u hu => hu) (m.set origin true) L hm1len hbase hnd hbud1
    rw [hr]
    obtain ⟨Δ, hΔ, hΔp⟩ := g3
    have horigG : origin ∉ ((adjF origin).foldl
        (fun st u => if st.1.getD u false = true then st
          else dfs adjF fuel u comp false false st.1 st.2)
        (m.set origin true, L)).2 := by
      rw [hΔ]
      intro hc
      rcases List.mem_append.mp hc with hc | hc
      · rw [hlist origin hc] at horig
        simp at horig
      · rw [(hΔp origin hc).1] at horig1
        simp at horig1
    refine ⟨g1, ?_, ?_, ?_, ?_, ?_, ?_⟩
    · exact fun w hw => g2 w (getD_set_true_mono m _ _ hw)
    · refine ⟨Δ ++ [origin], by rw [hΔ, List.append_assoc], fun w hw => ?_⟩
      rcases List.mem_append.mp hw with hw | hw
      · refine ⟨?_, (hΔp w hw).2⟩
        cases hb : m.getD w false
        · rfl
        · have := getD_set_true_mono m origin w hb
          rw [(hΔp w hw).1] at this
          simp at this
      · rw [List.mem_singleton.mp hw]
        exact ⟨horig, hon⟩
    · intro w
      constructor
      · rintro ⟨hw1, hw2⟩
        have hwn : w ∉ ((adjF origin).foldl
            (fun st u => if st.1.getD u false = true then st
              else dfs adjF fuel u comp false false st.1 st.2)
            (m.set origin true, L)).2 ∧ w ≠ origin := by
          constructor
          · exact fun hc => hw2 (List.mem_append_left _ hc)
          · exact fun hc => hw2 (List.mem_append_right _ (by simp [hc]))
        obtain ⟨hg, hgL⟩ := (g4 w).mp ⟨hw1, hwn.1⟩
        rcases (hm1iff w).mp hg with hc | hc
        · exact absurd hc hwn.2
        · exact ⟨hc, hgL⟩
      · rintro ⟨hw1, hw2⟩
        have hne : w ≠ origin := by
          intro hc
          rw [hc, horig] at hw1
          simp at hw1
        obtain ⟨ha, hb⟩ := (g4 w).mpr ⟨getD_set_true_mono m _ _ hw1, hw2⟩
        refine ⟨ha, fun hc => ?_⟩
        rcases List.mem_append.mp hc with hc | hc
        · exact hb hc
        · exact hne (List.mem_singleton.mp hc)
    · intro w hw
      rcases List.mem_append.mp hw with hw | hw
      · exact g5 w hw
      · rw [List.mem_singleton.mp hw]
        exact g2 origin horig1
    · rw [List.nodup_append]
      exact ⟨g6, List.nodup_singleton _,
        fun a ha hb => horigG ((List.mem_singleton.mp hb) ▸ ha)⟩
    · exact List.mem_append_right _ (by simp)

/-- The topological invariant of order-recording `dfs` on acyclic
adjacency: every listed vertex is appended only after all of its
out-neighbours, so each out-neighbour of a listed vertex occurs strictly
earlier in the list.  The hypothesis that every marked-but-unlisted
(grey) vertex reaches the origin is the recursion-stack invariant. -/
theorem dfs_order_sorted (adjF : Nat → List Nat) (n : Nat) (hadj : WFadj n adjF)
    (hacyc : AcycF adjF) :
    ∀ (fuel : Nat) (origin comp : Nat) (m : List Bool) (L : List Nat),
      (unseen n m).card ≤ fuel →
      m.getD origin false = false → origin < n → m.length = n →
      (∀ w ∈ L, m.getD w false = true) → L.Nodup →
      (∀ a ∈ L, ∀ b ∈ adjF a, Before L b a) →
      (∀ w, m.getD w false = true → w ∉ L → ReachF adjF w origin) →
      ∀ a ∈ (dfs adjF fuel origin comp false false m L).2,
        ∀ b ∈ adjF a, Before (dfs adjF fuel origin comp false false m L).2 b a := by
  intro fuel
  induction fuel with
  | zero =>
    intro origin comp m L hbud horig hon hlen hlist hnd hsort hgray
    exfalso
    have hm : origin ∈ unseen n m := (mem_unseen n m origin).mpr ⟨hon, horig⟩
    have hp := Finset.card_pos.mpr ⟨origin, hm⟩
    omega
  | succ fuel ih =>
    intro origin comp m L hbud horig hon hlen hlist hnd hsort hgray
    have honl : origin < m.length := by rw [hlen]; exact hon
    have hr : dfs adjF (fuel + 1) origin comp false false m L =
        (((adjF origin).foldl
            (fun st u => if st.1.getD u false = true then st
              else dfs adjF fuel u comp false false st.1 st.2)
            (m.set origin true, L)).1,
          ((adjF origin).foldl
            (fun st u => if st.1.getD u false = true then st
              else dfs adjF fuel u comp false false st.1 st.2)
            (m.set origin true, L)).2 ++ [origin]) := rfl
    have hm1len : (m.set origin true).length = n := by
      rw [List.length_set]; exact hlen
    have horig1 : (m.set origin true).getD origin false = true :=
      getD_set_self _ _ _ _ honl
    have hm1iff : ∀ w, (m.set origin true).getD w false = true ↔
        (w = origin ∨ m.getD w false = true) :=
      fun w => getD_set_true_iff m origin w honl
    have hbud1 : (unseen n (m.set origin true)).card ≤ fuel := by
      have := card_unseen_set_true n m origin hon honl horig
      omega
    have go : ∀ (l : List Nat), (∀ u ∈ l, u ∈ adjF origin) →
        ∀ (mc : List Bool) (Lc : List Nat),
          mc.length = n → (∀ w ∈ Lc, mc.getD w false = true) → Lc.Nodup →
          (unseen n mc).card ≤ fuel →
          (∀ a ∈ Lc, ∀ b ∈ adjF a, Before Lc b a) →
          (∀ w, (mc.getD w false = true ∧ w ∉ Lc) ↔
            ((m.set origin true).getD w false = true ∧ w ∉ L)) →
          (∀ w, mc.getD w false = true →
            (l.foldl (fun st u => if st.1.getD u false = true then st
              else dfs adjF fuel u comp false false st.1 st.2)
              (mc, Lc)).1.getD w false = true) ∧
          (l.foldl (fun st u => if st.1.getD u false = true then st
              else dfs adjF fuel u comp false false st.1 st.2)
              (mc, Lc)).1.length = n ∧
          (∀ w ∈ (l.foldl (fun st u => if st.1.getD u false = true then st
              else dfs adjF fuel u comp false false st.1 st.2) (mc, Lc)).2,
            (l.foldl (fun st u => if st.1.getD u false = true then st
              else dfs adjF fuel u comp false false st.1 st.2)
              (mc, Lc)).1.getD w false = true) ∧
          (l.foldl (fun st u => if st.1.getD u false = true then st
            else dfs adjF fuel u comp false false st.1 st.2) (mc, Lc)).2.Nodup ∧
          (unseen n (l.foldl (fun st u => if st.1.getD u false = true then st
            else dfs adjF fuel u comp false false st.1 st.2) (mc, Lc)).1).card
            ≤ fuel ∧
          (∀ w, ((l.foldl (fun st u => if st.1.getD u false = true then st
                else dfs adjF fuel u comp false false st.1 st.2)
                (mc, Lc)).1.getD w false = true ∧
              w ∉ (l.foldl (fun st u => if st.1.getD u false = true then st
                else dfs adjF fuel u comp false false st.1 st.2) (mc, Lc)).2) ↔
            ((m.set origin true).getD w false = true ∧ w ∉ L)) ∧
          (∀ a ∈ (l.foldl (fun st u => if st.1.getD u false = true then st
              else dfs adjF fuel u comp false false st.1 st.2) (mc, Lc)).2,
            ∀ b ∈ adjF a,
              Before (l.foldl (fun st u => if st.1.getD u false = true then st
                else dfs adjF fuel u comp false false st.1 st.2) (mc, Lc)).2 b a) ∧
          ∀ u ∈ l, (l.foldl (fun st u => if st.1.getD u false = true then st
            else dfs adjF fuel u comp false false st.1 st.2)
            (mc, Lc)).1.getD u false = true := by
      intro l
      induction l with
      | nil =>
        intro hl mc Lc h1 h2 h3 h4 h5 h6
        exact ⟨fun w hw => hw, h1, h2, h3, h4, h6, h5, by simp⟩
      | cons u l ihl =>
        intro hl mc Lc h1 h2 h3 h4 h5 h6
        rw [List.foldl_cons]
        by_cases hu : mc.getD u false = true
        · rw [if_pos hu]
          obtain ⟨d1, d2, d3, d4, d5, d6, d7, d8⟩ :=
            ihl (fun x hx => hl x (List.mem_cons_of_mem _ hx)) mc Lc h1 h2 h3 h4 h5 h6
          refine ⟨d1, d2, d3, d4, d5, d6, d7, fun x hx => ?_⟩
          rcases List.mem_cons.mp hx with hx | hx
          · exact d1 x (hx ▸ hu)
          · exact d8 x hx
        · rw [if_neg hu]
          have huf : mc.getD u false = false := by
            cases hb : mc.getD u false
            · rfl
            · exact absurd hb hu
          have hun : u < n := hadj origin u (hl u (List.mem_cons_self _ _))
          have hedge : u ∈ adjF origin := hl u (List.mem_cons_self _ _)
          have hreachc : ∀ w, mc.getD w false = true → w ∉ Lc →
              ReachF adjF w u := by
            intro w hw1 hw2
            obtain ⟨hg1, hg2⟩ := (h6 w).mp ⟨hw1, hw2⟩
            rcases (hm1iff w).mp hg1 with hc | hc
            · exact hc ▸ Relation.ReflTransGen.single hedge
            · exact Relation.ReflTransGen.tail (hgray w hc hg2) hedge
          obtain ⟨b1, b2, b3, b4, b5, b6, b7⟩ :=
            dfs_order_basic adjF n hadj fuel u comp mc Lc h4 huf hun h1 h2 h3
          have hsortc : ∀ a ∈ (dfs adjF fuel u comp false false mc Lc).2,
              ∀ b ∈ adjF a, Before (dfs adjF fuel u comp false false mc Lc).2 b a :=
            ih u comp mc Lc h4 huf hun h1 h2 h3 h5 hreachc
          have hcbud : (unseen n (dfs adjF fuel u comp false false mc Lc).1).card
              ≤ fuel :=
            Nat.le_trans (card_unseen_le n b2) h4
          obtain ⟨d1, d2, d3, d4, d5, d6, d7, d8⟩ :=
            ihl (fun x hx => hl x (List.mem_cons_of_mem _ hx))
              (dfs adjF fuel u comp false false mc Lc).1
              (dfs adjF fuel u comp false false mc Lc).2 b1 b5 b6 hcbud hsortc
              (fun w => (b4 w).trans (h6 w))
          refine ⟨fun w hw => d1 w (b2 w hw), d2, d3, d4, d5, d6, d7, fun x hx => ?_⟩
          rcases List.mem_cons.mp hx with hx | hx
          · subst hx
            exact d1 x (b5 x b7)
          · exact d8 x hx
    have hbase : ∀ w ∈ L, (m.set origin true).getD w false = true :=
      fun w hw => getD_set_true_mono m _ _ (hlist w hw)
    have hbsort : ∀ a ∈ L, ∀ b ∈ adjF a, Before L b a := hsort
    have hbdesc : ∀ w, ((m.set origin true).getD w false = true ∧ w ∉ L) ↔
        ((m.set origin true).getD w false = true ∧ w ∉ L) := fun w => Iff.rfl
    obtain ⟨g1, g2, g3, g4, g5, g6, g7, g8⟩ :=
      go (adjF origin) (fun u hu => hu) (m.set origin true) L hm1len hbase hnd
        hbud1 hbsort hbdesc
    rw [hr]
    intro a ha b hb
    rcases List.mem_append.mp ha with ha | ha
    · exact (g7 a ha b hb).append_right _
    · rw [List.mem_singleton.mp ha] at hb ⊢
      have hbmem : b ∈ ((adjF origin).foldl
          (fun st u => if st.1.getD u false = true then st
            else dfs adjF fuel u comp false false st.1 st.2)
          (m.set origin true, L)).2 := by
        by_contra hc
        obtain ⟨hg1, hg2⟩ := (g6 b).mp ⟨g8 b hb, hc⟩
        rcases (hm1iff b).mp hg1 with hd | hd
        · exact hacyc origin b hb (hd ▸ Relation.ReflTransGen.refl)
        · exact hacyc origin b hb (hgray b hd hg2)
      exact Before.of_mem_append hbmem (by simp)

/-- The number of unvisited vertices is at most `n`. -/
theorem card_unseen_le_n (n : Nat) (m : List Bool) : (unseen n m).card ≤ n := by
  have h := Finset.card_le_card (Finset.filter_subset
    (fun v => ¬ (m.getD v false = true)) (Finset.range n))
  simpa [unseen] using h

/-- Complete behaviour of `TopologicalSort::depth_first_order` launched
on a fresh state: every vertex below `n` ends up marked, the reverse
postorder lists exactly the vertices below `n`, once each, and — on
acyclic adjacency — every out-neighbour of a listed vertex occurs
strictly earlier in the list. -/
theorem depth_first_order_spec (adjF : Nat → List Nat) (n : Nat)
    (hadj : WFadj n adjF) :
    (∀ v, v < n →
      (TopologicalSort.depth_first_order adjF n (TopologicalSort.init n)).marked.getD
        v false = true) ∧
      (∀ v, v ∈ (TopologicalSort.depth_first_order adjF n
          (TopologicalSort.init n)).reverse_postorder ↔ v < n) ∧
      (TopologicalSort.depth_first_order adjF n
        (TopologicalSort.init n)).reverse_postorder.Nodup ∧
      (TopologicalSort.depth_first_order adjF n
        (TopologicalSort.init n)).reverse_postorder.length = n ∧
      (AcycF adjF →
        ∀ a ∈ (TopologicalSort.depth_first_order adjF n
            (TopologicalSort.init n)).reverse_postorder,
          ∀ b ∈ adjF a,
            Before (TopologicalSort.depth_first_order adjF n
              (TopologicalSort.init n)).reverse_postorder b a) := by
  unfold TopologicalSort.depth_first_order
  have loop : ∀ (vs : List Nat), (∀ v ∈ vs, v < n) → ∀ (s : TopoState),
      s.marked.length = n →
      (∀ w ∈ s.reverse_postorder, s.marked.getD w false = true) →
      s.reverse_postorder.Nodup →
      (∀ w, s.marked.getD w false = true → w ∈ s.reverse_postorder) →
      (∀ w ∈ s.reverse_postorder, w < n) →
      (AcycF adjF → ∀ a ∈ s.reverse_postorder, ∀ b ∈ adjF a,
        Before s.reverse_postorder b a) →
      (vs.foldl (fun st v =>
        if st.marked.getD v false then st
        else
          let r := dfs adjF n v v false false st.marked st.reverse_postorder
          ⟨r.2, r.1⟩) s).marked.length = n ∧
        (∀ w ∈ (vs.foldl (fun st v =>
            if st.marked.getD v false then st
            else
              let r := dfs adjF n v v false false st.marked st.reverse_postorder
              ⟨r.2, r.1⟩) s).reverse_postorder,
          (vs.foldl (fun st v =>
            if st.marked.getD v false then st
            else
              let r := dfs adjF n v v false false st.marked st.reverse_postorder
              ⟨r.2, r.1⟩) s).marked.getD w false = true) ∧
        (vs.foldl (fun st v =>
          if st.marked.getD v false then st
          else
            let r := dfs adjF n v v false false st.marked st.reverse_postorder
            ⟨r.2, r.1⟩) s).reverse_postorder.Nodup ∧
        (∀ w, (vs.foldl (fun st v =>
            if st.marked.getD v false then st
            else
              let r := dfs adjF n v v false false st.marked st.reverse_postorder
              ⟨r.2, r.1⟩) s).marked.getD w false = true →
          w ∈ (vs.foldl (fun st v =>
            if st.marked.getD v false then st
            else
              let r := dfs adjF n v v false false st.marked st.reverse_postorder
              ⟨r.2, r.1⟩) s).reverse_postorder) ∧
        (∀ w ∈ (vs.foldl (fun st v =>
            if st.marked.getD v false then st
            else
              let r := dfs adjF n v v false false st.marked st.reverse_postorder
              ⟨r.2, r.1⟩) s).reverse_postorder, w < n) ∧
        (AcycF adjF → ∀ a ∈ (vs.foldl (fun st v =>
            if st.marked.getD v false then st
            else
              let r := dfs adjF n v v false false st.marked st.reverse_postorder
              ⟨r.2, r.1⟩) s).reverse_postorder,
          ∀ b ∈ adjF a, Before (vs.foldl (fun st v =>
            if st.marked.getD v false then st
            else
              let r := dfs adjF n v v false false st.marked st.reverse_postorder
              ⟨r.2, r.1⟩) s).reverse_postorder b a) ∧
        (∀ w, s.marked.getD w false = true → (vs.foldl (fun st v =>
          if st.marked.getD v false then st
          else
            let r := dfs adjF n v v false false st.marked st.reverse_postorder
            ⟨r.2, r.1⟩) s).marked.getD w false = true) ∧
        ∀ v ∈ vs, (vs.foldl (fun st v =>
          if st.marked.getD v false then st
          else
            let r := dfs adjF n v v false false st.marked st.reverse_postorder
            ⟨r.2, r.1⟩) s).marked.getD v false = true := by
    intro vs
    induction vs with
    | nil =>
      intro hvs s h1 h2 h3 h4 h5 h6
      exact ⟨h1, h2, h3, h4, h5, h6, fun w hw => hw, by simp⟩
    | cons v vs ihl =>
      intro hvs s h1 h2 h3 h4 h5 h6
      rw [List.foldl_cons]
      by_cases hv : s.marked.getD v false = true
      · rw [if_pos hv]
        obtain ⟨d1, d2, d3, d4, d5, d6, d7, d8⟩ :=
          ihl (fun x hx => hvs x (List.mem_cons_of_mem _ hx)) s h1 h2 h3 h4 h5 h6
        refine ⟨d1, d2, d3, d4, d5, d6, d7, fun x hx => ?_⟩
        rcases List.mem_cons.mp hx with hx | hx
        · exact d7 x (hx ▸ hv)
        · exact d8 x hx
      · rw [if_neg hv]
        have hvf : s.marked.getD v false = false := by
          cases hb : s.marked.getD v false
          · rfl
          · exact absurd hb hv
        have hvn : v < n := hvs v (List.mem_cons_self _ _)
        obtain ⟨b1, b2, b3, b4, b5, b6, b7⟩ :=
          dfs_order_basic adjF n hadj n v v s.marked s.reverse_postorder
            (card_unseen_le_n n s.marked) hvf hvn h1 h2 h3
        have hgraysE : ∀ w,
            (dfs adjF n v v false false s.marked s.reverse_postorder).1.getD w false
              = true →
            w ∈ (dfs adjF n v v false false s.marked s.reverse_postorder).2 := by
          intro w hw
          by_contra hc
          obtain ⟨hg1, hg2⟩ := (b4 w).mp ⟨hw, hc⟩
          exact hg2 (h4 w hg1)
        have hboundsE : ∀ w ∈ (dfs adjF n v v false false s.marked
            s.reverse_postorder).2, w < n := by
          obtain ⟨Δ, hΔ, hΔp⟩ := b3
          intro w hw
          rw [hΔ] at hw
          rcases List.mem_append.mp hw with hw | hw
          · exact h5 w hw
          · exact (hΔp w hw).2
        have hsortE : AcycF adjF →
            ∀ a ∈ (dfs adjF n v v false false s.marked s.reverse_postorder).2,
              ∀ b ∈ adjF a,
                Before (dfs adjF n v v false false s.marked s.reverse_postorder).2
                  b a := by
          intro hacyc
          apply dfs_order_sorted adjF n hadj hacyc n v v s.marked s.reverse_postorder
            (card_unseen_le_n n s.marked) hvf hvn h1 h2 h3 (h6 hacyc)
          intro w hw1 hw2
          exact absurd (h4 w hw1) hw2
        obtain ⟨d1, d2, d3, d4, d5, d6, d7, d8⟩ :=
          ihl (fun x hx => hvs x (List.mem_cons_of_mem _ hx))
            ⟨(dfs adjF n v v false false s.marked s.reverse_postorder).2,
              (dfs adjF n v v false false s.marked s.reverse_postorder).1⟩
            b1 b5 b6 hgraysE hboundsE hsortE
        refine ⟨d1, d2, d3, d4, d5, d6, fun w hw => d7 w (b2 w hw), fun x hx => ?_⟩
        rcases List.mem_cons.mp hx with hx | hx
        · subst hx
          exact d7 x (b5 x b7)
        · exact d8 x hx
  have hinit : ∀ n2, (TopologicalSort.init n2 : TopoState).marked =
      List.replicate n2 false := fun _ => rfl
  obtain ⟨d1, d2, d3, d4, d5, d6, d7, d8⟩ :=
    loop (List.range n) (fun v hv => List.mem_range.mp hv) (TopologicalSort.init n)
      (by rw [hinit]; exact List.length_replicate _ _)
      (by intro w hw; simp [TopologicalSort.init] at hw)
      (by simp [TopologicalSort.init])
      (by
        intro w hw
        exfalso
        rw [hinit] at hw
        by_cases hwn : w < n
        · rw [List.getD_eq_getElem _ _ (by simpa using hwn)] at hw
          simp at hw
        · rw [List.getD_eq_default _ _ (by simpa using Nat.le_of_not_lt hwn)] at hw
          simp at hw)
      (by intro w hw; simp [TopologicalSort.init] at hw)
      (by intro _ a ha; simp [TopologicalSort.init] at ha)
  refine ⟨fun v hv => d8 v (List.mem_range.mpr hv),
    fun v => ⟨fun hvL => d5 v hvL,
      fun hv => d4 v (d8 v (List.mem_range.mpr hv))⟩, d3, ?_, d6⟩
  rw [← List.toFinset_card_of_nodup d3]
  conv_rhs => rw [← Finset.card_range n]
  congr 1
  ext w
  rw [List.mem_toFinset, Finset.mem_range]
  exact ⟨fun hw => d5 w hw, fun hw => d4 w (d8 w (List.mem_range.mpr hw))⟩

end Algods

namespace AlgodsClaims

open Algods

/-- Claim C1: on the 6-vertex CLRS flow network with capacities
16,13,12,4,14,9,20,7,4 and zero initial flows,
`FordFulkerson::find_flows(network, 0, 5)` terminates (the augmenting
round loop exits within 30 rounds, witnessed by the `some` result of the
fuel-checked embedding) and `max_flow()` then returns `Some(23)`. -/
theorem c1_ford_fulkerson_clrs_max_flow_23 :
    FordFulkerson.find_flows_max_flow clrsNetwork 0 5 30 = some 23 := by
  decide

set_option maxRecDepth 4000 in
/-- Claim C2: after `StrongConnectedComponent::find` on the 13-vertex
example graph, `connected` returns `Some(true)` for every pair drawn
from {0,2,3,4,5}, `Some(false)` for (0,1), `Some(true)` for every pair
drawn from {9,10,11}, and `Some(false)` for (9,8). -/
theorem c2_scc_example_connectivity :
    (∀ v ∈ [0, 2, 3, 4, 5], ∀ w ∈ [0, 2, 3, 4, 5],
        StrongConnectedComponent.connected sccExampleState v w = some true) ∧
      StrongConnectedComponent.connected sccExampleState 0 1 = some false ∧
      (∀ v ∈ [9, 10, 11], ∀ w ∈ [9, 10, 11],
        StrongConnectedComponent.connected sccExampleState v w = some true) ∧
      StrongConnectedComponent.connected sccExampleState 9 8 = some false := by
  decide

/-- Claim C5 (code bug): for the weighted digraph built by
`EdgeWeightedDiGraph::from_vec(vec![(0, 1, 5)])` the sum of
`in_degree(v)` over all vertices is 2 while `nb_edges()` is 1, because
`from_vec` increments the in-degree entry a second time after `add_edge`
has already done so. -/
theorem c5_ewdigraph_from_vec_in_degree_double_count :
    (EdgeWeightedDiGraph.from_vec [(0, 1, 5)]).nb_edges = 1 ∧
      ((List.range (EdgeWeightedDiGraph.from_vec [(0, 1, 5)]).nb_vertices).map
          (EdgeWeightedDiGraph.from_vec [(0, 1, 5)]).in_degree_of).sum = 2 := by
  decide

end AlgodsClaims

namespace AlgodsClaims

open Algods

/-- Claim C10: `shortest_path_faster_algorithm` panics (the `expect` on
the missing deque front, modelled as `none` / `fatal`) whenever a
successful relaxation occurs while the deque is empty; in particular,
after the source is popped the deque is empty, so on every graph in
which the source has an out-edge improving a distance (relative to the
distance array with the source entry zeroed) the function panics. -/
theorem c10_spfa_panics_on_empty_deque :
    (∀ (v : Nat) (l : List (Nat × Int)) (edge_to : List Nat) (dist_to : List Int),
        (∃ p ∈ l, dist_to.getD v 0 + p.2 < dist_to.getD p.1 0) →
        spfaEdges v l edge_to dist_to [] = none) ∧
      ∀ (g : EdgeWeightedDiGraph) (source : Nat) (edge_to : List Nat)
          (dist_to : List Int) (fuel : Nat),
        (∃ p ∈ g.out_pairs source,
            (dist_to.set source 0).getD source 0 + p.2 <
              (dist_to.set source 0).getD p.1 0) →
        shortest_path_faster_algorithm g source edge_to dist_to (fuel + 1) =
          SpfaResult.fatal := by
  refine ⟨fun v l e d h => spfaEdges_nil_of_improving v l e d h, ?_⟩
  intro g source edge_to dist_to fuel h
  unfold shortest_path_faster_algorithm spfaLoop
  rw [spfaEdges_nil_of_improving source (g.out_pairs source) edge_to
    (dist_to.set source 0) h]

/-- Witness for C10 at the two-vertex graph with the single edge
(0, 1, 5): the improvement hypothesis holds and the run panics. -/
theorem c10_spfa_panics_on_empty_deque_witness :
    (∃ p ∈ spfaExampleGraph.out_pairs 0,
        (([i32Maximum, i32Maximum].set 0 0) : List Int).getD 0 0 + p.2 <
          (([i32Maximum, i32Maximum].set 0 0) : List Int).getD p.1 0) ∧
      shortest_path_faster_algorithm spfaExampleGraph 0 [9, 9]
          [i32Maximum, i32Maximum] 5 =
        SpfaResult.fatal :=
  ⟨by decide,
    c10_spfa_panics_on_empty_deque.2 spfaExampleGraph 0 [9, 9]
      [i32Maximum, i32Maximum] 4 (by decide)⟩

/-- Counterexample for claim C7: on the two-vertex graph with the single
edge (0, 1, 5), the real SPFA panics on the empty deque where the
claim's enqueue-exactly-once reading would complete normally. -/
theorem c7_counterexample_spfa_panics :
    shortest_path_faster_algorithm spfaExampleGraph 0 [9, 9]
        [i32Maximum, i32Maximum] 5 = SpfaResult.fatal ∧
      spfa_claimC7 spfaExampleGraph 0 [9, 9] [i32Maximum, i32Maximum] 5 =
        SpfaResult.ok [9, 0] [0, 5] ∧
      SpfaResult.fatal ≠ SpfaResult.ok [9, 0] [0, 5] := by
  decide

/-- Claim C7 as amended: when a vertex's distance improves and the
vertex is not already in the deque, the code reads the current front of
the deque — panicking when the deque is empty — and otherwise enqueues
the vertex at the BACK unconditionally, and IN ADDITION at the front
when its new distance is smaller than the front element's distance (so
in that case it is enqueued twice, not once). -/
theorem c7_amended_spfa_enqueue (v neighbor : Nat) (weight : Int)
    (rest : List (Nat × Int)) (edge_to : List Nat) (dist_to : List Int)
    (himp : dist_to.getD v 0 + weight < dist_to.getD neighbor 0) :
    spfaEdges v ((neighbor, weight) :: rest) edge_to dist_to [] = none ∧
      ∀ (front : Nat) (dq : List Nat), neighbor ∉ front :: dq →
        ∃ dq2,
          spfaEdges v ((neighbor, weight) :: rest) edge_to dist_to (front :: dq) =
              spfaEdges v rest (edge_to.set neighbor v)
                (dist_to.set neighbor (dist_to.getD v 0 + weight)) dq2 ∧
            dq2.getLast? = some neighbor ∧
            (dq2.head? = some neighbor ↔
              (dist_to.set neighbor (dist_to.getD v 0 + weight)).getD neighbor 0 <
                (dist_to.set neighbor (dist_to.getD v 0 + weight)).getD front 0) ∧
            dq2.count neighbor =
              if (dist_to.set neighbor (dist_to.getD v 0 + weight)).getD neighbor 0 <
                  (dist_to.set neighbor (dist_to.getD v 0 + weight)).getD front 0 then
                2
              else 1 := by
  have hfz : ∀ front dq, neighbor ∉ front :: dq → (front :: dq).count neighbor = 0 := by
    intro front dq hmem
    exact List.count_eq_zero.mpr hmem
  constructor
  · simp only [spfaEdges, if_pos himp]
    rfl
  · intro front dq hmem
    have hne : front ≠ neighbor := by
      intro hc
      exact hmem (hc ▸ List.mem_cons_self _ _)
    by_cases hb :
        (dist_to.set neighbor (dist_to.getD v 0 + weight)).getD neighbor 0 <
          (dist_to.set neighbor (dist_to.getD v 0 + weight)).getD front 0
    · refine ⟨(neighbor :: front :: dq) ++ [neighbor], ?_, ?_, ?_, ?_⟩
      · simp only [spfaEdges, if_pos himp, relax]
        rw [if_neg hmem]
        simp only [if_pos hb]
      · exact getLastQ_snoc _ _
      · exact iff_of_true rfl hb
      · rw [if_pos hb]
        have h0 : (neighbor :: front :: dq).count neighbor = 1 := by
          simp [List.count_cons, hfz front dq hmem]
        rw [List.count_append, h0]
        simp
    · refine ⟨(front :: dq) ++ [neighbor], ?_, ?_, ?_, ?_⟩
      · simp only [spfaEdges, if_pos himp, relax]
        rw [if_neg hmem]
        simp only [if_neg hb]
      · exact getLastQ_snoc _ _
      · exact iff_of_false (fun hc => hne (Option.some.inj hc)) hb
      · rw [if_neg hb]
        rw [List.count_append, hfz front dq hmem]
        simp

/-- Witness for the amended C7: a concrete improving edge with a
nonempty deque, enqueued at front and back (distance 5 beats the front
sentinel). -/
theorem c7_amended_spfa_enqueue_witness :
    (([0, i32Maximum, i32Maximum] : List Int).getD 0 0 + 5 <
        ([0, i32Maximum, i32Maximum] : List Int).getD 1 0) ∧
      spfaEdges 0 [((1 : Nat), (5 : Int))] [9, 9, 9] [0, i32Maximum, i32Maximum]
          [] = none :=
  ⟨by decide,
    (c7_amended_spfa_enqueue 0 1 5 [] [9, 9, 9] [0, i32Maximum, i32Maximum]
      (by decide)).1⟩

/-- Counterexample for claim C6: on the three-vertex graph with edges
(0,2,1) and (2,1,1), the real `bellman_ford` never examines the out-edge
of vertex 2 (it loops over vertex indices `0..nb_edges() = 0..2`), so
vertex 1 keeps the maximum sentinel; iterating over ALL edges exactly
once, as the claim states, would set it to 2. -/
theorem c6_counterexample_bellman_ford :
    (bellman_ford bellmanFordCexGraph 0 [3, 3, 3]
          [i32Maximum, i32Maximum, i32Maximum]).2.getD 1 0 = i32Maximum ∧
      (bellman_ford_claimC6 bellmanFordCexGraph 0 [3, 3, 3]
          [i32Maximum, i32Maximum, i32Maximum]).2.getD 1 0 = 2 ∧
      i32Maximum ≠ 2 := by
  decide

/-- Claim C6 as amended: on graphs where `nb_edges() ≤ nb_vertices()`
(otherwise the source indexes out of range and panics), `bellman_ford`
zeroes the source distance and then performs exactly one conditional
relaxation pass over `bellmanFordExamined` — the out-edges, in storage
order, of the vertices whose INDEX is below `nb_edges()` — relaxing an
edge exactly when it improves the destination's tentative distance;
out-edges of vertices with index at least `nb_edges()` are never
examined. -/
theorem c6_amended_bellman_ford_pass (g : EdgeWeightedDiGraph)
    (h : g.nb_edges ≤ g.nb_vertices) (source : Nat) (edge_to : List Nat)
    (dist_to : List Int) :
    bellman_ford g source edge_to dist_to =
      (bellmanFordExamined g).foldl relaxTriple (edge_to, dist_to.set source 0) := by
  unfold bellman_ford bellmanFordExamined
  rw [foldl_flatMap]
  simp only [List.foldl_map]
  rfl

/-- Witness for the amended C6 at the counterexample graph. -/
theorem c6_amended_bellman_ford_pass_witness :
    bellmanFordCexGraph.nb_edges ≤ bellmanFordCexGraph.nb_vertices ∧
      bellman_ford bellmanFordCexGraph 0 [3, 3, 3]
          [i32Maximum, i32Maximum, i32Maximum] =
        (bellmanFordExamined bellmanFordCexGraph).foldl relaxTriple
          ([3, 3, 3], ([i32Maximum, i32Maximum, i32Maximum] : List Int).set 0 0) :=
  ⟨by decide,
    c6_amended_bellman_ford_pass bellmanFordCexGraph (by decide) 0 [3, 3, 3]
      [i32Maximum, i32Maximum, i32Maximum]⟩

end AlgodsClaims

namespace AlgodsClaims

open Algods

/-- Claim C4: reversing a well-formed directed graph twice yields back
the original graph in the sense of structural equality of edge sets (and
of the vertex count): every directed edge of `reverse(reverse(g))` is an
edge of `g` and conversely. -/
theorem c4_reverse_reverse_edge_sets (g : DiGraph) (hwf : DiGraph.WF g) :
    g.reverse.reverse.nb_vertices = g.nb_vertices ∧
      ∀ u v, DiGraph.edgeMem g.reverse.reverse u v ↔ DiGraph.edgeMem g u v := by
  obtain ⟨r1, r2, r3⟩ := DiGraph.reverse_spec g
  obtain ⟨s1, s2, s3⟩ := DiGraph.reverse_spec g.reverse
  refine ⟨by rw [s2, r2], fun u v => ?_⟩
  rw [s3 u v, r3 v u, r2]
  constructor
  · rintro ⟨hv, ⟨hu2, he, hv2⟩, hu⟩
    exact he
  · intro he
    have hu : u < g.nb_vertices := by
      have := DiGraph.lt_length_of_edgeMem he
      rwa [hwf.1] at this
    have hv : v < g.nb_vertices := hwf.target_lt he
    exact ⟨hv, ⟨hu, he, hv⟩, hu⟩

/-- Witness for C4 at the four-vertex graph of the doctest of
`DiGraph::reverse` (edges (0,0),(0,1),(0,2),(1,3),(3,2)). -/
theorem c4_reverse_reverse_edge_sets_witness :
    DiGraph.WF ((((((DiGraph.init 4).add_edge 0 0).add_edge 0 1).add_edge
        0 2).add_edge 1 3).add_edge 3 2) ∧
      DiGraph.edgeMem
        ((((((DiGraph.init 4).add_edge 0 0).add_edge 0 1).add_edge
          0 2).add_edge 1 3).add_edge 3 2).reverse.reverse 1 3 :=
  ⟨by decide,
    ((c4_reverse_reverse_edge_sets
        ((((((DiGraph.init 4).add_edge 0 0).add_edge 0 1).add_edge
          0 2).add_edge 1 3).add_edge 3 2) (by decide)).2 1 3).mpr (by decide)⟩

end AlgodsClaims

namespace AlgodsClaims

open Algods

/-- Claim C8: for every sequence of `add_edge` calls with in-range
endpoints, `nb_edges()` equals the number of distinct endpoint pairs
added — ordered pairs for `DiGraph`, unordered pairs for `Graph` — and
re-inserting an already present edge leaves the graph (hence
`nb_edges()` and, for `DiGraph`, every in-degree) unchanged. -/
theorem c8_add_edge_distinct_pair_count (n : Nat) (pairs : List (Nat × Nat))
    (hin : ∀ p ∈ pairs, p.1 < n ∧ p.2 < n) :
    (DiGraph.build n pairs).nb_edges = pairs.toFinset.card ∧
      (Graph.build n pairs).nb_edges = (pairs.map normPair).toFinset.card ∧
      (∀ u v, DiGraph.edgeMem (DiGraph.build n pairs) u v →
        (DiGraph.build n pairs).add_edge u v = DiGraph.build n pairs ∧
          ((DiGraph.build n pairs).add_edge u v).nb_edges =
            (DiGraph.build n pairs).nb_edges ∧
          ∀ x, ((DiGraph.build n pairs).add_edge u v).in_degree_of x =
            (DiGraph.build n pairs).in_degree_of x) ∧
      ∀ u v, Graph.edgeMem (Graph.build n pairs) u v →
        (Graph.build n pairs).add_edge u v = Graph.build n pairs ∧
          ((Graph.build n pairs).add_edge u v).nb_edges =
            (Graph.build n pairs).nb_edges := by
  obtain ⟨d1, d2, d3, d4⟩ :=
    DiGraph.buildDi_spec n pairs (DiGraph.init n) ∅ hin
      (DiGraph.out_edges_length_init n) rfl
      (fun a b => iff_of_false (DiGraph.edgeMem_init n a b) (by simp)) rfl
  obtain ⟨u1, u2, u3, u4⟩ :=
    Graph.buildUn_spec n pairs (Graph.init n) ∅ hin
      (List.length_replicate _ _) rfl
      (fun a b => iff_of_false (Graph.edgeMem_initUn n a b) (by simp)) rfl
  refine ⟨by unfold DiGraph.build; rw [d4]; simp,
    by unfold Graph.build; rw [u4]; simp, ?_, ?_⟩
  · intro u v h
    have hnoop := DiGraph.add_edge_self _ u v h
    exact ⟨hnoop, by rw [hnoop], fun x => by rw [hnoop]⟩
  · intro u v h
    have hsym : Graph.edgeMem (Graph.build n pairs) v u := by
      show Graph.edgeMem (pairs.foldl (fun g p => g.add_edge p.1 p.2) (Graph.init n)) v u
      apply (u3 v u).mpr
      rw [normPair_swap]
      exact (u3 u v).mp h
    have hnoop := Graph.add_edge_selfUn _ u v h hsym
    exact ⟨hnoop, by rw [hnoop]⟩


/-- Witness for C8 with duplicate insertions: pairs
(0,1),(1,0),(0,1),(2,2) give 3 distinct ordered pairs but 2 distinct
unordered pairs. -/
theorem c8_add_edge_distinct_pair_count_witness :
    (∀ p ∈ [((0 : Nat), (1 : Nat)), (1, 0), (0, 1), (2, 2)], p.1 < 3 ∧ p.2 < 3) ∧
      (DiGraph.build 3 [(0, 1), (1, 0), (0, 1), (2, 2)]).nb_edges =
        ([((0 : Nat), (1 : Nat)), (1, 0), (0, 1), (2, 2)]).toFinset.card ∧
      (Graph.build 3 [(0, 1), (1, 0), (0, 1), (2, 2)]).nb_edges =
        (([((0 : Nat), (1 : Nat)), (1, 0), (0, 1), (2, 2)]).map normPair).toFinset.card :=
  ⟨by decide,
    (c8_add_edge_distinct_pair_count 3 [(0, 1), (1, 0), (0, 1), (2, 2)]
      (by decide)).1,
    (c8_add_edge_distinct_pair_count 3 [(0, 1), (1, 0), (0, 1), (2, 2)]
      (by decide)).2.1⟩

end AlgodsClaims

namespace Algods

/-- The find loop of `ConnectedComponent::find` marks every in-range
launch vertex and never unmarks anything. -/
theorem cc_find_loop (g : Graph) :
    ∀ (vs : List Nat) (s : CCState), s.marked.length = g.nb_vertices →
      (vs.foldl (fun s v =>
        if s.marked.getD v false then s
        else
          let r := dfs (Graph.adj g) g.nb_vertices v v true true s.marked s.id
          ⟨r.2, r.1, s.nb_cc + 1, s.ran⟩) s).marked.length = g.nb_vertices ∧
        (∀ w, s.marked.getD w false = true →
          (vs.foldl (fun s v =>
            if s.marked.getD v false then s
            else
              let r := dfs (Graph.adj g) g.nb_vertices v v true true s.marked s.id
              ⟨r.2, r.1, s.nb_cc + 1, s.ran⟩) s).marked.getD w false = true) ∧
        ∀ v ∈ vs, v < g.nb_vertices →
          (vs.foldl (fun s v =>
            if s.marked.getD v false then s
            else
              let r := dfs (Graph.adj g) g.nb_vertices v v true true s.marked s.id
              ⟨r.2, r.1, s.nb_cc + 1, s.ran⟩) s).marked.getD v false = true := by
  intro vs
  induction vs with
  | nil =>
    intro s h1
    exact ⟨h1, fun w hw => hw, by simp⟩
  | cons v vs ihl =>
    intro s h1
    rw [List.foldl_cons]
    by_cases hv : s.marked.getD v false = true
    · rw [if_pos hv]
      obtain ⟨d1, d2, d3⟩ := ihl s h1
      refine ⟨d1, d2, fun x hx hxn => ?_⟩
      rcases List.mem_cons.mp hx with hx | hx
      · exact d2 x (hx ▸ hv)
      · exact d3 x hx hxn
    · rw [if_neg hv]
      have hlen1 : (dfs (Graph.adj g) g.nb_vertices v v true true
          s.marked s.id).1.length = g.nb_vertices := by
        rw [dfs_length]; exact h1
      obtain ⟨d1, d2, d3⟩ := ihl ⟨(dfs (Graph.adj g) g.nb_vertices v v true true
        s.marked s.id).2, (dfs (Graph.adj g) g.nb_vertices v v true true
        s.marked s.id).1, s.nb_cc + 1, s.ran⟩ hlen1
      refine ⟨d1, fun w hw => d2 w (dfs_mono _ _ _ _ _ _ _ _ w hw),
        fun x hx hxn => ?_⟩
      rcases List.mem_cons.mp hx with hx | hx
      · subst hx
        exact d2 x (dfs_marks_origin _ _ _ _ _ _ _ _
          (Nat.lt_of_le_of_lt (Nat.zero_le x) hxn) (by rw [h1]; exact hxn))
      · exact d3 x hx hxn

/-- The find loop of `StrongConnectedComponent::find` (over an
arbitrary order list) marks every in-range launch vertex. -/
theorem scc_find_loop (dg : DiGraph) (O : List Nat) :
    ∀ (vs : List Nat) (s : SCCState), s.marked.length = dg.nb_vertices →
      (vs.foldl (fun s v =>
        let vertex := O.getD (dg.nb_vertices - 1 - v) 0
        if s.marked.getD vertex false then s
        else
          let r := dfs (DiGraph.adj dg) dg.nb_vertices vertex vertex true true
            s.marked s.id
          ⟨r.2, r.1, s.nb_scc + 1, s.ran⟩) s).marked.length = dg.nb_vertices ∧
        (∀ w, s.marked.getD w false = true →
          (vs.foldl (fun s v =>
            let vertex := O.getD (dg.nb_vertices - 1 - v) 0
            if s.marked.getD vertex false then s
            else
              let r := dfs (DiGraph.adj dg) dg.nb_vertices vertex vertex true true
                s.marked s.id
              ⟨r.2, r.1, s.nb_scc + 1, s.ran⟩) s).marked.getD w false = true) ∧
        ∀ v ∈ vs, O.getD (dg.nb_vertices - 1 - v) 0 < dg.nb_vertices →
          (vs.foldl (fun s v =>
            let vertex := O.getD (dg.nb_vertices - 1 - v) 0
            if s.marked.getD vertex false then s
            else
              let r := dfs (DiGraph.adj dg) dg.nb_vertices vertex vertex true true
                s.marked s.id
              ⟨r.2, r.1, s.nb_scc + 1, s.ran⟩) s).marked.getD
            (O.getD (dg.nb_vertices - 1 - v) 0) false = true := by
  intro vs
  induction vs with
  | nil =>
    intro s h1
    exact ⟨h1, fun w hw => hw, by simp⟩
  | cons v vs ihl =>
    intro s h1
    rw [List.foldl_cons]
    by_cases hv : s.marked.getD (O.getD (dg.nb_vertices - 1 - v) 0) false = true
    · rw [if_pos hv]
      obtain ⟨d1, d2, d3⟩ := ihl s h1
      refine ⟨d1, d2, fun x hx hxn => ?_⟩
      rcases List.mem_cons.mp hx with hx | hx
      · exact d2 _ (hx ▸ hv)
      · exact d3 x hx hxn
    · rw [if_neg hv]
      have hlen1 : (dfs (DiGraph.adj dg) dg.nb_vertices
          (O.getD (dg.nb_vertices - 1 - v) 0) (O.getD (dg.nb_vertices - 1 - v) 0)
          true true s.marked s.id).1.length = dg.nb_vertices := by
        rw [dfs_length]; exact h1
      obtain ⟨d1, d2, d3⟩ := ihl ⟨(dfs (DiGraph.adj dg) dg.nb_vertices
        (O.getD (dg.nb_vertices - 1 - v) 0) (O.getD (dg.nb_vertices - 1 - v) 0)
        true true s.marked s.id).2, (dfs (DiGraph.adj dg) dg.nb_vertices
        (O.getD (dg.nb_vertices - 1 - v) 0) (O.getD (dg.nb_vertices - 1 - v) 0)
        true true s.marked s.id).1, s.nb_scc + 1, s.ran⟩ hlen1
      refine ⟨d1, fun w hw => d2 w (dfs_mono _ _ _ _ _ _ _ _ w hw),
        fun x hx hxn => ?_⟩
      rcases List.mem_cons.mp hx with hx | hx
      · subst hx
        exact d2 _ (dfs_marks_origin _ _ _ _ _ _ _ _
          (Nat.lt_of_le_of_lt (Nat.zero_le _) hxn) (by rw [h1]; exact hxn))
      · exact d3 x hx hxn

/-- After `ConnectedComponent::find` over the whole graph, every
in-range vertex is marked. -/
theorem cc_find_marks (g : Graph) (n : Nat) (hn : g.nb_vertices = n) (v : Nat)
    (hv : v < n) :
    (ConnectedComponent.find g (ConnectedComponent.init n)).marked.getD v false
      = true := by
  unfold ConnectedComponent.find
  obtain ⟨d1, d2, d3⟩ := cc_find_loop g (List.range g.nb_vertices)
    (ConnectedComponent.init n)
    (by
      show (List.replicate n false).length = g.nb_vertices
      rw [List.length_replicate, hn])
  exact d3 v (List.mem_range.mpr (by rw [hn]; exact hv)) (by rw [hn]; exact hv)

/-- After `StrongConnectedComponent::find` over the whole graph, every
in-range vertex is marked: the reverse postorder of the reversed graph
lists every vertex, and the loop indexes through all of its
positions. -/
theorem scc_find_marks (dg : DiGraph) (n : Nat)
    (hn : dg.nb_vertices = n) (v : Nat) (hv : v < n) :
    (StrongConnectedComponent.find dg (StrongConnectedComponent.init n)).marked.getD
      v false = true := by
  unfold StrongConnectedComponent.find
  have hadjrev : WFadj dg.nb_vertices (DiGraph.adj dg.reverse) := by
    intro a b hb
    obtain ⟨r1, r2, r3⟩ := DiGraph.reverse_spec dg
    exact ((r3 a b).mp hb).1
  obtain ⟨t1, t2, t3, t4, t5⟩ :=
    depth_first_order_spec (DiGraph.adj dg.reverse) dg.nb_vertices hadjrev
  obtain ⟨d1, d2, d3⟩ := scc_find_loop dg
    (TopologicalSort.depth_first_order (DiGraph.adj dg.reverse) dg.nb_vertices
      (TopologicalSort.init dg.nb_vertices)).reverse_postorder
    (List.range dg.nb_vertices) (StrongConnectedComponent.init n)
    (by
      show (List.replicate n false).length = dg.nb_vertices
      rw [List.length_replicate, hn])
  have hvn : v < dg.nb_vertices := by rw [hn]; exact hv
  have hvO : v ∈ (TopologicalSort.depth_first_order (DiGraph.adj dg.reverse)
      dg.nb_vertices (TopologicalSort.init dg.nb_vertices)).reverse_postorder :=
    (t2 v).mpr hvn
  obtain ⟨⟨j, hj⟩, hget⟩ := List.mem_iff_get.mp hvO
  have hjn : j < dg.nb_vertices := by rw [← t4]; exact hj
  have hidx : dg.nb_vertices - 1 - (dg.nb_vertices - 1 - j) = j := by omega
  have hgetD : (TopologicalSort.depth_first_order (DiGraph.adj dg.reverse)
      dg.nb_vertices (TopologicalSort.init dg.nb_vertices)).reverse_postorder.getD
      (dg.nb_vertices - 1 - (dg.nb_vertices - 1 - j)) 0 = v := by
    rw [hidx, List.getD_eq_getElem _ _ hj, ← hget]
    rfl
  have := d3 (dg.nb_vertices - 1 - j)
    (List.mem_range.mpr (by omega)) (by rw [hgetD]; exact hvn)
  rw [hgetD] at this
  exact this

end Algods

namespace AlgodsClaims

open Algods

/-- Claim C3: for every well-formed acyclic directed graph and every
edge (u, v), after `TopologicalSort::init` followed by one
`depth_first_order`, u appears strictly before v in the sequence
yielded by `order()` (the reverse of the recorded postorder). -/
theorem c3_topological_order_validity (g : DiGraph) (hwf : DiGraph.WF g)
    (hacyc : DiGraph.Acyclic g) (u v : Nat) (he : DiGraph.edgeMem g u v) :
    Before
      (TopologicalSort.order
        (TopologicalSort.depth_first_order (DiGraph.adj g) g.nb_vertices
          (TopologicalSort.init g.nb_vertices))) u v := by
  have hadj : WFadj g.nb_vertices (DiGraph.adj g) := fun a b hb => hwf.target_lt hb
  obtain ⟨d1, d2, d3, d4, d5⟩ :=
    depth_first_order_spec (DiGraph.adj g) g.nb_vertices hadj
  have hun : u < g.nb_vertices := by
    have := DiGraph.lt_length_of_edgeMem he
    rwa [hwf.1] at this
  have hu : u ∈ (TopologicalSort.depth_first_order (DiGraph.adj g) g.nb_vertices
      (TopologicalSort.init g.nb_vertices)).reverse_postorder := (d2 u).mpr hun
  have hb := d5 hacyc u hu v he
  exact hb.reverse

/-- Witness for C3 at the two-vertex graph with the single edge
(0, 1): 0 comes before 1 in the topological order. -/
theorem c3_topological_order_validity_witness :
    DiGraph.WF ((DiGraph.init 2).add_edge 0 1) ∧
      DiGraph.Acyclic ((DiGraph.init 2).add_edge 0 1) ∧
      DiGraph.edgeMem ((DiGraph.init 2).add_edge 0 1) 0 1 ∧
      Before
        (TopologicalSort.order
          (TopologicalSort.depth_first_order
            (DiGraph.adj ((DiGraph.init 2).add_edge 0 1))
            ((DiGraph.init 2).add_edge 0 1).nb_vertices
            (TopologicalSort.init ((DiGraph.init 2).add_edge 0 1).nb_vertices)))
        0 1 := by
  have hadj : ∀ x, DiGraph.adj ((DiGraph.init 2).add_edge 0 1) x =
      if x = 0 then [1] else [] := by
    intro x
    rcases x with _ | x
    · rfl
    · rcases x with _ | x
      · rfl
      · rw [if_neg (Nat.succ_ne_zero _)]
        rfl
  have hacyc : DiGraph.Acyclic ((DiGraph.init 2).add_edge 0 1) := by
    intro a b hab hba
    rw [hadj a] at hab
    by_cases ha0 : a = 0
    · rw [if_pos ha0] at hab
      have hb1 : b = 1 := List.mem_singleton.mp hab
      subst hb1
      subst ha0
      rcases Relation.ReflTransGen.cases_head hba with h | ⟨c, hc1, hc2⟩
      · exact absurd h (by decide)
      · rw [hadj 1] at hc1
        simp at hc1
    · rw [if_neg ha0] at hab
      simp at hab
  exact ⟨by decide, hacyc,
    by decide,
    c3_topological_order_validity ((DiGraph.init 2).add_edge 0 1) (by decide)
      hacyc 0 1 (by decide)⟩

end AlgodsClaims

namespace AlgodsClaims

open Algods

/-- Claim C9: for in-range vertices v, w, `ConnectedComponent::connected`
and `StrongConnectedComponent::connected` return `None` exactly when one
of the two vertices is unmarked, and `Some(id[v] == id[w])` when both are
marked; after a completed `find` over the whole graph they always return
`Some` (and the embedding of `find` is a total function: no fatal error). -/
theorem c9_connected_option_semantics (g : Graph) (dg : DiGraph) (v w : Nat)
    (hvg : v < g.nb_vertices) (hwg : w < g.nb_vertices)
    (hvd : v < dg.nb_vertices) (hwd : w < dg.nb_vertices) :
    (∀ s : CCState,
      (ConnectedComponent.connected s v w = none ↔
        s.marked.getD v false = false ∨ s.marked.getD w false = false) ∧
      (s.marked.getD v false = true → s.marked.getD w false = true →
        ConnectedComponent.connected s v w
          = some (s.id.getD v 0 == s.id.getD w 0))) ∧
    (∀ s : SCCState,
      (StrongConnectedComponent.connected s v w = none ↔
        s.marked.getD v false = false ∨ s.marked.getD w false = false) ∧
      (s.marked.getD v false = true → s.marked.getD w false = true →
        StrongConnectedComponent.connected s v w
          = some (s.id.getD v 0 == s.id.getD w 0))) ∧
    (∃ b, ConnectedComponent.connected
      (ConnectedComponent.find g (ConnectedComponent.init g.nb_vertices)) v w
        = some b) ∧
    (∃ b, StrongConnectedComponent.connected
      (StrongConnectedComponent.find dg
        (StrongConnectedComponent.init dg.nb_vertices)) v w = some b) := by
  refine ⟨fun s => ⟨?_, ?_⟩, fun s => ⟨?_, ?_⟩, ?_, ?_⟩
  · unfold ConnectedComponent.connected
    by_cases h : s.marked.getD v false = false ∨ s.marked.getD w false = false
    · rw [if_pos h]
      exact iff_of_true rfl h
    · rw [if_neg h]
      exact iff_of_false (fun hc => Option.noConfusion hc) h
  · intro hv hw
    unfold ConnectedComponent.connected
    rw [if_neg]
    rintro (hc | hc)
    · rw [hv] at hc; exact Bool.noConfusion hc
    · rw [hw] at hc; exact Bool.noConfusion hc
  · unfold StrongConnectedComponent.connected
    by_cases h : s.marked.getD v false = false ∨ s.marked.getD w false = false
    · rw [if_pos h]
      exact iff_of_true rfl h
    · rw [if_neg h]
      exact iff_of_false (fun hc => Option.noConfusion hc) h
  · intro hv hw
    unfold StrongConnectedComponent.connected
    rw [if_neg]
    rintro (hc | hc)
    · rw [hv] at hc; exact Bool.noConfusion hc
    · rw [hw] at hc; exact Bool.noConfusion hc
  · have hv := cc_find_marks g g.nb_vertices rfl v hvg
    have hw := cc_find_marks g g.nb_vertices rfl w hwg
    have hne : ¬((ConnectedComponent.find g
        (ConnectedComponent.init g.nb_vertices)).marked.getD v false = false ∨
        (ConnectedComponent.find g
          (ConnectedComponent.init g.nb_vertices)).marked.getD w false = false) := by
      rintro (hc | hc)
      · rw [hv] at hc; exact Bool.noConfusion hc
      · rw [hw] at hc; exact Bool.noConfusion hc
    unfold ConnectedComponent.connected
    rw [if_neg hne]
    exact ⟨_, rfl⟩
  · have hv := scc_find_marks dg dg.nb_vertices rfl v hvd
    have hw := scc_find_marks dg dg.nb_vertices rfl w hwd
    have hne : ¬((StrongConnectedComponent.find dg
        (StrongConnectedComponent.init dg.nb_vertices)).marked.getD v false = false ∨
        (StrongConnectedComponent.find dg
          (StrongConnectedComponent.init dg.nb_vertices)).marked.getD w false
            = false) := by
      rintro (hc | hc)
      · rw [hv] at hc; exact Bool.noConfusion hc
      · rw [hw] at hc; exact Bool.noConfusion hc
    unfold StrongConnectedComponent.connected
    rw [if_neg hne]
    exact ⟨_, rfl⟩

/-- Witness for C9 on concrete two-vertex graphs. -/
theorem c9_connected_option_semantics_witness :
    0 < (Graph.init 2).nb_vertices ∧ 1 < (Graph.init 2).nb_vertices ∧
    0 < (DiGraph.init 2).nb_vertices ∧ 1 < (DiGraph.init 2).nb_vertices ∧
    ∃ b, StrongConnectedComponent.connected
      (StrongConnectedComponent.find (DiGraph.init 2)
        (StrongConnectedComponent.init (DiGraph.init 2).nb_vertices)) 0 1
        = some b :=
  ⟨by decide, by decide, by decide, by decide,
    (c9_connected_option_semantics (Graph.init 2) (DiGraph.init 2) 0 1
      (by decide) (by decide) (by decide) (by decide)).2.2.2⟩

end AlgodsClaims
